import Mathlib

/-!
Shallow embedding of `nativelink-util/src/evicting_map.rs`.

The Rust unit implements `EvictingMap<T, I>`: an LRU-ordered map from digests
to entries, with a three-way eviction policy (byte budget with hysteresis,
max age, max count), running aggregate byte size, metric counters, and an
`unref()` lifecycle signal sent to entries that are dropped.

Modelling decisions:
* `DigestInfo` is modelled as an opaque `Nat` key.
* The entry type `T : LenEntry` is modelled by `Entry`: `len` is its byte
  length, `touchOk` the (pure) result its `touch()` returns, and `id` an
  identity used only to observe which handles receive `unref()`.
* `LruCache<DigestInfo, EvictionItem<T>>` is modelled as a list of
  key/item pairs in most-recently-used-first order, which is the iteration
  order of the `lru` crate.  `get`/`get_mut`/`put` promote to the front,
  `peek_lru`/`pop_lru` act on the back, `pop`/`pop_entry` remove in place.
* The async mutex is dropped: every public operation runs while holding the
  single lock, so the sequential state-passing semantics below is exactly
  the per-operation behaviour of the Rust code.  The one nondeterminism in
  the source - the unordered completion of the batched `touch()` futures in
  `sizes_for_keys` - is resolved to input order.
* `unref()` invocations are recorded in an event list `State.unreffed`.
* The clock is injected: `elapsed : Int` is the value of
  `anchor_time.elapssed().as_secs() as i32` at the operation, and ages are
  `i32` values modelled as `Int`.
* `u64`/`usize` aggregates are modelled as `Nat`; the only subtraction the
  source performs (`sum_store_size -= len`) happens for entries present in
  the map, where the tracked invariant gives `len <= sum_store_size`, so
  truncated `Nat` subtraction agrees with the machine arithmetic there.
-/

/-- Model of the caller-supplied `T: LenEntry` handle: `len` is `len()`,
`touchOk` the value `touch()` resolves to, and `id` identifies the handle
so that `unref()` events can be counted. -/
structure Entry where
  id : Nat
  len : Nat
  touchOk : Bool
  deriving DecidableEq, Repr

/-- `EvictionItem<T>`: age in seconds since the anchor (an `i32`), plus the
entry handle. -/
structure EvictionItem where
  seconds_since_anchor : Int
  data : Entry
  deriving DecidableEq, Repr

/-- The LRU container contents, most-recently-used first (the iteration
order of the `lru` crate). -/
abbrev Lru := List (Nat × EvictionItem)

namespace Lru

/-- Association-list lookup by key (first, and under the no-duplicate-keys
invariant only, occurrence). -/
def lookup : Lru → Nat → Option EvictionItem
  | [], _ => none
  | (a, b) :: l, k => if a = k then some b else lookup l k

/-- Remove the entry with the given key, if present (first occurrence). -/
def erase : Lru → Nat → Lru
  | [], _ => []
  | (a, b) :: l, k => if a = k then l else (a, b) :: erase l k

/-- `LruCache::get` / `get_mut`: return the entry and promote its key to
most-recently used; no change when the key is absent. -/
def get (l : Lru) (k : Nat) : Option EvictionItem × Lru :=
  match lookup l k with
  | none => (none, l)
  | some e => (some e, (k, e) :: erase l k)

end Lru

/-- Keys of the LRU contents, in recency order. -/
def keys (l : Lru) : List Nat := l.map Prod.fst

/-- Handle identities of the LRU contents, in recency order. -/
def ids (l : Lru) : List Nat := l.map fun p => p.2.data.id

/-- Sum of `len()` over the LRU contents. -/
def sumLens (l : Lru) : Nat := (l.map fun p => p.2.data.len).sum

/-- The Rust `State<T>`: LRU contents, running aggregate size, and metric
counters, plus the recorded trace of `unref()` invocations. -/
structure State where
  lru : Lru
  sum_store_size : Nat
  evicted_bytes : Nat
  evicted_items : Nat
  replaced_bytes : Nat
  replaced_items : Nat
  removed_bytes : Nat
  removed_items : Nat
  lifetime_inserted_bytes : Nat
  unreffed : List Nat
  deriving DecidableEq, Repr

/-- The freshly constructed state (`EvictingMap::new`). -/
def State.initial : State :=
  { lru := []
    sum_store_size := 0
    evicted_bytes := 0
    evicted_items := 0
    replaced_bytes := 0
    replaced_items := 0
    removed_bytes := 0
    removed_items := 0
    lifetime_inserted_bytes := 0
    unreffed := [] }

/-- `State::remove`: subtract the entry from the aggregate, bump the
replaced or evicted counters according to the flag, and invoke `unref()`
on the handle (recorded in the event list).  The caller has already taken
the entry out of the LRU container. -/
def State.remove (s : State) (eviction_item : EvictionItem) (replaced : Bool) : State :=
  { s with
    sum_store_size := s.sum_store_size - eviction_item.data.len
    replaced_items := if replaced then s.replaced_items + 1 else s.replaced_items
    replaced_bytes := if replaced then s.replaced_bytes + eviction_item.data.len else s.replaced_bytes
    evicted_items := if replaced then s.evicted_items else s.evicted_items + 1
    evicted_bytes := if replaced then s.evicted_bytes else s.evicted_bytes + eviction_item.data.len
    unreffed := s.unreffed ++ [eviction_item.data.id] }

/-- The tracked well-formedness of a state: the running aggregate equals the
sum of `len()` over present entries, and keys are unique (guaranteed by the
Rust map container). -/
def State.WF (s : State) : Prop :=
  s.sum_store_size = sumLens s.lru ∧ (keys s.lru).Nodup

instance (s : State) : Decidable s.WF := by
  unfold State.WF; infer_instance

/-- `SerializedLRU`: snapshot of (digest, age) pairs in recency order plus
the anchor Unix timestamp. -/
structure SerializedLRU where
  data : List (Nat × Int)
  anchor_time : Nat
  deriving DecidableEq, Repr

/-- The `EvictingMap` configuration and anchor (the mutable `State` is
threaded separately). `0` disables each limit. -/
structure EvictingMap where
  max_bytes : Nat
  evict_bytes : Nat
  max_seconds : Int
  max_count : Nat
  anchor_ts : Nat
  deriving DecidableEq, Repr

namespace EvictingMap

/-- `EvictingMap::should_evict`, with `elapsed` the current value of
`anchor_time.elapsed().as_secs() as i32`. -/
def should_evict (m : EvictingMap) (elapsed : Int) (lru_len : Nat)
    (peek_entry : EvictionItem) (sum_store_size : Nat) (max_bytes : Nat) : Bool :=
  let is_over_size := max_bytes != 0 && decide (sum_store_size ≥ max_bytes)
  let evict_older_than_seconds := elapsed - m.max_seconds
  let old_item_exists :=
    m.max_seconds != 0 && decide (peek_entry.seconds_since_anchor < evict_older_than_seconds)
  let is_over_count := m.max_count != 0 && decide (lru_len > m.max_count)
  is_over_size || old_item_exists || is_over_count

/-- The `while should_evict { pop_lru; state.remove }` loop of
`evict_items`, written with explicit fuel.  The loop pops one item per
iteration, so fuel equal to the initial length makes this exactly the Rust
loop: if the fuel runs out the container is already empty and the Rust loop
would stop at the same point. -/
def evictLoopFuel (m : EvictingMap) (elapsed : Int) (max_bytes : Nat) :
    Nat → State → State
  | 0, s => s
  | fuel + 1, s =>
    match s.lru.getLast? with
    | none => s
    | some (_, eviction_item) =>
      if m.should_evict elapsed s.lru.length eviction_item s.sum_store_size max_bytes then
        evictLoopFuel m elapsed max_bytes fuel
          (State.remove { s with lru := s.lru.dropLast } eviction_item false)
      else s

/-- `EvictingMap::evict_items`: peek the LRU end; choose the effective byte
budget (lowered by `evict_bytes` when hysteresis is configured and
`should_evict` holds against the unshrunk budget); then run the eviction
loop. -/
def evict_items (m : EvictingMap) (elapsed : Int) (s : State) : State :=
  match s.lru.getLast? with
  | none => s
  | some (_, peek_entry) =>
    let max_bytes :=
      if m.max_bytes != 0 && m.evict_bytes != 0 &&
          m.should_evict elapsed s.lru.length peek_entry s.sum_store_size m.max_bytes then
        if m.evict_bytes < m.max_bytes then m.max_bytes - m.evict_bytes else 0
      else m.max_bytes
    evictLoopFuel m elapsed max_bytes s.lru.length s

end EvictingMap

/-- `EvictingMap::touch_or_remove`: if the handle's `touch()` succeeds,
return it; otherwise pop the key (if still present) and `unref()` it. -/
def touch_or_remove (s : State) (digest : Nat) (data : Entry) : State × Option Entry :=
  if data.touchOk then (s, some data)
  else
    match Lru.lookup s.lru digest with
    | none => (s, none)
    | some eviction_item =>
      (State.remove { s with lru := Lru.erase s.lru digest } eviction_item false, none)

namespace EvictingMap

/-- `EvictingMap::get`: run an eviction pass, look up with promotion, then
revalidate the clone through `touch_or_remove`. -/
def get (m : EvictingMap) (elapsed : Int) (s : State) (digest : Nat) :
    State × Option Entry :=
  let s := m.evict_items elapsed s
  match Lru.get s.lru digest with
  | (none, _) => (s, none)
  | (some entry, lru2) => touch_or_remove { s with lru := lru2 } digest entry.data

/-- One iteration of the `inner_insert_many` loop: `put` the new item
(promoting), `unref()` a replaced previous value tagged "replaced", add the
new size to the aggregate and lifetime counter, then run an eviction
pass. -/
def insertStep (m : EvictingMap) (elapsed : Int) (seconds_since_anchor : Int)
    (s : State) (digest : Nat) (data : Entry) : State × Option Entry :=
  let new_item_size := data.len
  let old := Lru.lookup s.lru digest
  let s := { s with
    lru := (digest, { seconds_since_anchor := seconds_since_anchor, data := data }) ::
      Lru.erase s.lru digest }
  let s :=
    match old with
    | some old_item => State.remove s old_item true
    | none => s
  let s := { s with
    sum_store_size := s.sum_store_size + new_item_size
    lifetime_inserted_bytes := s.lifetime_inserted_bytes + new_item_size }
  (m.evict_items elapsed s, old.map (·.data))

/-- `EvictingMap::inner_insert_many`: insert each pair in input order,
collecting replaced handles. -/
def inner_insert_many (m : EvictingMap) (elapsed : Int) (seconds_since_anchor : Int)
    (s : State) : List (Nat × Entry) → State × List Entry
  | [] => (s, [])
  | (digest, data) :: rest =>
    let r := m.insertStep elapsed seconds_since_anchor s digest data
    let r2 := m.inner_insert_many elapsed seconds_since_anchor r.1 rest
    (r2.1, r.2.toList ++ r2.2)

/-- `EvictingMap::insert_with_time`. -/
def insert_with_time (m : EvictingMap) (elapsed : Int) (s : State) (digest : Nat)
    (data : Entry) (seconds_since_anchor : Int) : State × Option Entry :=
  let r := m.inner_insert_many elapsed seconds_since_anchor s [(digest, data)]
  (r.1, r.2.head?)

/-- `EvictingMap::insert`: insert with age equal to the current elapsed
seconds since the anchor. -/
def insert (m : EvictingMap) (elapsed : Int) (s : State) (digest : Nat) (data : Entry) :
    State × Option Entry :=
  m.insert_with_time elapsed s digest data elapsed

/-- `EvictingMap::insert_many` (the empty-input shortcut returns the state
unchanged, which `inner_insert_many` on `[]` also does). -/
def insert_many (m : EvictingMap) (elapsed : Int) (s : State)
    (inserts : List (Nat × Entry)) : State × List Entry :=
  m.inner_insert_many elapsed elapsed s inserts

/-- `EvictingMap::inner_remove`: eviction pass, then pop-and-unref the key
if present (tagged with `replaced = false`, i.e. the evicted counters). -/
def inner_remove (m : EvictingMap) (elapsed : Int) (s : State) (digest : Nat) :
    State × Bool :=
  let s := m.evict_items elapsed s
  match Lru.lookup s.lru digest with
  | some entry =>
    (State.remove { s with lru := Lru.erase s.lru digest } entry false, true)
  | none => (s, false)

/-- `EvictingMap::remove`. -/
def remove (m : EvictingMap) (elapsed : Int) (s : State) (digest : Nat) :
    State × Bool :=
  m.inner_remove elapsed s digest

/-- `EvictingMap::remove_if`: look up (with the promoting `lru.get`), test
the predicate, and only on success fall through to `inner_remove`. -/
def remove_if (m : EvictingMap) (elapsed : Int) (s : State) (digest : Nat)
    (cond : Entry → Bool) : State × Bool :=
  match Lru.get s.lru digest with
  | (some entry, lru2) =>
    if cond entry.data then m.inner_remove elapsed { s with lru := lru2 } digest
    else ({ s with lru := lru2 }, false)
  | (none, _) => (s, false)

/-- The classification pass of `sizes_for_keys`: for each digest, look up
with promotion; a present entry that the policy (against the speculative
local length/size copies and the unshrunk `max_bytes`) says to evict is
collected for removal and the local copies are decremented; a surviving
entry's handle is scheduled for `touch()`; an absent digest is collected
for removal.  Returns the state (with promotions applied), the digests to
remove, and the per-input `touch()` schedule. -/
def classifyKeys (m : EvictingMap) (elapsed : Int) :
    List Nat → State → Nat → Nat → State × List Nat × List (Option Entry)
  | [], s, _, _ => (s, [], [])
  | digest :: rest, s, lru_len, sum_store_size =>
    match Lru.get s.lru digest with
    | (some entry, lru2) =>
      if m.should_evict elapsed lru_len entry sum_store_size m.max_bytes then
        let r := m.classifyKeys elapsed rest { s with lru := lru2 }
          (lru_len - 1) (sum_store_size - entry.data.len)
        (r.1, digest :: r.2.1, none :: r.2.2)
      else
        let r := m.classifyKeys elapsed rest { s with lru := lru2 } lru_len sum_store_size
        (r.1, r.2.1, some entry.data :: r.2.2)
    | (none, _) =>
      let r := m.classifyKeys elapsed rest s lru_len sum_store_size
      (r.1, digest :: r.2.1, none :: r.2.2)

end EvictingMap

/-- The removal arm of the `join!` in `sizes_for_keys`: pop and unref each
collected digest still present (bypassing `evict_items`). -/
def removePhase (s : State) : List Nat → State
  | [] => s
  | digest :: rest =>
    match Lru.lookup s.lru digest with
    | some entry =>
      removePhase (State.remove { s with lru := Lru.erase s.lru digest } entry false) rest
    | none => removePhase s rest

/-- The touch arm of the `join!` in `sizes_for_keys`: run `touch_or_remove`
for every scheduled handle and record `Some(len)` for survivors.  The Rust
futures complete in unspecified order; input order is one of the possible
linearizations and is the one modelled. -/
def touchPhase : State → List Nat → List (Option Entry) → State × List (Option Nat)
  | s, _, [] => (s, [])
  | s, [], _ :: _ => (s, [])
  | s, digest :: rest, slot :: slots =>
    match slot with
    | some data =>
      let r := touch_or_remove s digest data
      let r2 := touchPhase r.1 rest slots
      (r2.1, r.2.map Entry.len :: r2.2)
    | none =>
      let r2 := touchPhase s rest slots
      (r2.1, none :: r2.2)

namespace EvictingMap

/-- `EvictingMap::sizes_for_keys`. -/
def sizes_for_keys (m : EvictingMap) (elapsed : Int) (s : State) (digests : List Nat) :
    State × List (Option Nat) :=
  let c := m.classifyKeys elapsed digests s s.lru.length s.sum_store_size
  let s1 := removePhase c.1 c.2.1
  touchPhase s1 digests c.2.2

/-- `EvictingMap::size_for_key`. -/
def size_for_key (m : EvictingMap) (elapsed : Int) (s : State) (digest : Nat) :
    State × Option Nat :=
  let r := m.sizes_for_keys elapsed s [digest]
  (r.1, r.2.headD none)

/-- `EvictingMap::build_lru_index`: eviction pass, then serialize every
surviving (digest, age) pair in recency order together with the anchor
timestamp. -/
def build_lru_index (m : EvictingMap) (elapsed : Int) (s : State) :
    State × SerializedLRU :=
  let s := m.evict_items elapsed s
  (s,
    { data := s.lru.map fun p => (p.1, p.2.seconds_since_anchor)
      anchor_time := m.anchor_ts })

end EvictingMap

/-- The `for (digest, seconds_since_anchor) in serialized_lru.data` loop of
`restore_lru`: `put` each pair (with a handle from the builder) into the
LRU, discarding any replaced value and leaving `sum_store_size` untouched,
exactly as the Rust loop does. -/
def restorePuts (entry_builder : Nat → Entry) : State → List (Nat × Int) → State
  | s, [] => s
  | s, kv :: rest =>
    restorePuts entry_builder
      { s with
        lru := (kv.1,
          { seconds_since_anchor := kv.2, data := entry_builder kv.1 }) ::
          Lru.erase s.lru kv.1 } rest

namespace EvictingMap

/-- `EvictingMap::restore_lru`: replace the anchor, clear the LRU (the Rust
`clear()` drops the previous entries without `unref()` and leaves
`sum_store_size` untouched), re-`put` every snapshot pair with a handle
from the builder (also without touching `sum_store_size`), then run an
eviction pass with `elapsed` now measured from the restored anchor. -/
def restore_lru (m : EvictingMap) (elapsed : Int) (s : State)
    (serialized_lru : SerializedLRU) (entry_builder : Nat → Entry) :
    EvictingMap × State :=
  let m' := { m with anchor_ts := serialized_lru.anchor_time }
  let s := restorePuts entry_builder { s with lru := [] } serialized_lru.data
  (m', m'.evict_items elapsed s)

end EvictingMap

/-- The public operation surface, used to quantify over "any public
operation". -/
inductive Op where
  | get (digest : Nat)
  | insert (digest : Nat) (data : Entry)
  | insertWithTime (digest : Nat) (data : Entry) (seconds_since_anchor : Int)
  | insertMany (pairs : List (Nat × Entry))
  | remove (digest : Nat)
  | removeIf (digest : Nat) (cond : Entry → Bool)
  | sizesForKeys (digests : List Nat)
  | buildLruIndex
  | restoreLru (serialized : SerializedLRU) (entry_builder : Nat → Entry)

/-- Whether the operation is anything other than `restore_lru`. -/
def Op.nonRestore : Op → Bool
  | .restoreLru _ _ => false
  | _ => true

/-- Identities of the handles an operation itself brings into the map. -/
def Op.newIds : Op → List Nat
  | .insert _ data => [data.id]
  | .insertWithTime _ data _ => [data.id]
  | .insertMany pairs => pairs.map fun p => p.2.id
  | .restoreLru serialized entry_builder =>
    serialized.data.map fun kv => (entry_builder kv.1).id
  | _ => []

/-- Run one public operation, keeping the resulting state. -/
def EvictingMap.runOp (m : EvictingMap) (elapsed : Int) (s : State) : Op → State
  | .get digest => (m.get elapsed s digest).1
  | .insert digest data => (m.insert elapsed s digest data).1
  | .insertWithTime digest data ssa => (m.insert_with_time elapsed s digest data ssa).1
  | .insertMany pairs => (m.insert_many elapsed s pairs).1
  | .remove digest => (m.remove elapsed s digest).1
  | .removeIf digest cond => (m.remove_if elapsed s digest cond).1
  | .sizesForKeys digests => (m.sizes_for_keys elapsed s digests).1
  | .buildLruIndex => (m.build_lru_index elapsed s).1
  | .restoreLru serialized entry_builder =>
    (m.restore_lru elapsed s serialized entry_builder).2

/-! ### Basic list and `Lru` lemmas -/

theorem eq_dropLast_append_of_getLast? {α} {l : List α} {x : α}
    (h : l.getLast? = some x) : l = l.dropLast ++ [x] := by
  have hne : l ≠ [] := by intro he; rw [he] at h; simp at h
  rw [List.getLast?_eq_getLast l hne] at h
  simp only [Option.some.injEq] at h
  conv_lhs => rw [← List.dropLast_append_getLast hne]
  rw [h]

theorem perm_cons_dropLast_of_getLast? {α} {l : List α} {x : α}
    (h : l.getLast? = some x) : l.Perm (x :: l.dropLast) := by
  conv_lhs => rw [eq_dropLast_append_of_getLast? h]
  exact List.perm_append_singleton x l.dropLast

namespace Lru

theorem lookup_none_iff {l : Lru} {k : Nat} :
    lookup l k = none ↔ k ∉ keys l := by
  induction l with
  | nil => simp [lookup, keys]
  | cons p t ih =>
    obtain ⟨a, b⟩ := p
    by_cases hak : a = k
    · subst hak
      simp [lookup, keys]
    · simp only [lookup, if_neg hak, keys, List.map_cons, List.mem_cons]
      constructor
      · rintro h (rfl | hm)
        · exact hak rfl
        · exact (ih.mp h) hm
      · intro h
        exact ih.mpr fun hm => h (Or.inr hm)

theorem erase_of_lookup_none {l : Lru} {k : Nat}
    (h : lookup l k = none) : erase l k = l := by
  induction l with
  | nil => rfl
  | cons p t ih =>
    obtain ⟨a, b⟩ := p
    by_cases hak : a = k
    · subst hak; simp [lookup] at h
    · simp [lookup, hak] at h
      simp [erase, hak, ih h]

theorem perm_cons_erase {l : Lru} {k : Nat} {e : EvictionItem}
    (h : lookup l k = some e) : l.Perm ((k, e) :: erase l k) := by
  induction l with
  | nil => simp [lookup] at h
  | cons p t ih =>
    obtain ⟨a, b⟩ := p
    by_cases hak : a = k
    · subst hak
      simp [lookup] at h
      subst h
      simp [erase]
    · simp [lookup, hak] at h
      simp only [erase, if_neg hak]
      exact ((ih h).cons (a, b)).trans (List.Perm.swap (k, e) (a, b) (erase t k))

theorem keys_erase_sublist (l : Lru) (k : Nat) :
    (keys (erase l k)).Sublist (keys l) := by
  induction l with
  | nil => simp [erase, keys]
  | cons p t ih =>
    obtain ⟨a, b⟩ := p
    by_cases hak : a = k
    · subst hak
      simp only [erase, if_pos rfl, keys, List.map_cons]
      exact (List.sublist_cons_self _ _)
    · simp only [erase, if_neg hak, keys, List.map_cons]
      exact ih.cons₂ a

theorem nodup_keys_erase {l : Lru} (k : Nat) (h : (keys l).Nodup) :
    (keys (erase l k)).Nodup :=
  (keys_erase_sublist l k).nodup h

theorem not_mem_keys_erase {l : Lru} {k : Nat} (h : (keys l).Nodup) :
    k ∉ keys (erase l k) := by
  induction l with
  | nil => simp [erase, keys]
  | cons p t ih =>
    obtain ⟨a, b⟩ := p
    simp only [keys, List.map_cons, List.nodup_cons] at h
    by_cases hak : a = k
    · subst hak
      simpa [erase, keys] using h.1
    · simp only [erase, if_neg hak, keys, List.map_cons, List.mem_cons]
      rintro (rfl | hmem)
      · exact hak rfl
      · exact ih h.2 hmem

theorem nodup_keys_promote {l : Lru} {k : Nat} (e : EvictionItem)
    (h : (keys l).Nodup) :
    (keys ((k, e) :: erase l k)).Nodup := by
  simp only [keys, List.map_cons, List.nodup_cons]
  exact ⟨not_mem_keys_erase h, nodup_keys_erase k h⟩

theorem length_promote {l : Lru} {k : Nat} {e : EvictionItem}
    (hl : lookup l k = some e) : ((k, e) :: erase l k).length = l.length :=
  ((perm_cons_erase hl).length_eq).symm

theorem length_erase_le (l : Lru) (k : Nat) : (erase l k).length ≤ l.length := by
  induction l with
  | nil => simp [erase]
  | cons p t ih =>
    obtain ⟨a, b⟩ := p
    by_cases hak : a = k
    · subst hak; simp [erase]
    · simp only [erase, if_neg hak, List.length_cons]
      omega

theorem sumLens_perm {l l' : Lru} (h : l.Perm l') : sumLens l = sumLens l' := by
  unfold sumLens
  exact (h.map fun p => p.2.data.len).sum_eq

theorem keys_perm {l l' : Lru} (h : l.Perm l') : (keys l).Perm (keys l') := by
  unfold keys
  exact h.map Prod.fst

theorem ids_perm {l l' : Lru} (h : l.Perm l') : (ids l).Perm (ids l') := by
  unfold ids
  exact h.map fun p => p.2.data.id

end Lru

/-! ### Small unfolding lemmas -/

@[simp] theorem sumLens_nil : sumLens [] = 0 := rfl

@[simp] theorem sumLens_cons (p : Nat × EvictionItem) (l : Lru) :
    sumLens (p :: l) = p.2.data.len + sumLens l := by
  simp [sumLens]

@[simp] theorem keys_nil : keys [] = [] := rfl

@[simp] theorem keys_cons (p : Nat × EvictionItem) (l : Lru) :
    keys (p :: l) = p.1 :: keys l := rfl

@[simp] theorem ids_nil : ids [] = [] := rfl

@[simp] theorem ids_cons (p : Nat × EvictionItem) (l : Lru) :
    ids (p :: l) = p.2.data.id :: ids l := rfl

/-! ### A simulation relation tracking handle conservation

`Sim new s s'` says that `s'` arises from `s` by steps of the map in which
the fresh handles `new` were brought in, and records: well-formedness is
preserved; the multiset of handle identities is conserved between the LRU
contents and the `unref()` trace; the trace only grows; and the (dead)
`removed_*` counters never move. -/
structure Sim (new : List Nat) (s s' : State) : Prop where
  wf : s.WF → s'.WF
  perm : (ids s'.lru ++ s'.unreffed).Perm (new ++ (ids s.lru ++ s.unreffed))
  logExt : ∃ t, s'.unreffed = s.unreffed ++ t
  removedI : s'.removed_items = s.removed_items
  removedB : s'.removed_bytes = s.removed_bytes

theorem Sim.same (s : State) : Sim [] s s :=
  ⟨id, by simp, ⟨[], by simp⟩, rfl, rfl⟩

theorem Sim.trans {n1 n2 : List Nat} {s s1 s2 : State}
    (h1 : Sim n1 s s1) (h2 : Sim n2 s1 s2) : Sim (n1 ++ n2) s s2 := by
  refine ⟨fun h => h2.wf (h1.wf h), ?_, ?_, h2.removedI.trans h1.removedI,
    h2.removedB.trans h1.removedB⟩
  · refine h2.perm.trans ?_
    have a1 : (n2 ++ (ids s1.lru ++ s1.unreffed)).Perm
        (n2 ++ (n1 ++ (ids s.lru ++ s.unreffed))) := h1.perm.append_left n2
    have a2 : (n2 ++ (n1 ++ (ids s.lru ++ s.unreffed))).Perm
        ((n1 ++ n2) ++ (ids s.lru ++ s.unreffed)) := by
      rw [← List.append_assoc]
      exact List.perm_append_comm.append_right _
    exact a1.trans a2
  · obtain ⟨t1, ht1⟩ := h1.logExt
    obtain ⟨t2, ht2⟩ := h2.logExt
    exact ⟨t1 ++ t2, by rw [ht2, ht1, List.append_assoc]⟩

/-- Replacing the LRU contents by a permutation of themselves (promotion on
lookup) is a conservative step. -/
theorem rel_setPerm {s : State} {l' : Lru} (hperm : s.lru.Perm l') :
    Sim [] s { s with lru := l' } := by
  refine ⟨?_, ?_, ⟨[], by simp⟩, rfl, rfl⟩
  · rintro ⟨hsum, hnd⟩
    exact ⟨hsum.trans (Lru.sumLens_perm hperm), ((Lru.keys_perm hperm).nodup_iff).mp hnd⟩
  · simpa using (Lru.ids_perm hperm.symm).append_right s.unreffed

/-- Popping one entry out of the LRU and running `State::remove` on it is a
conservative step: its handle id moves from the LRU contents to the
`unref()` trace. -/
theorem rel_removeStep {s : State} {rest : Lru} {k : Nat} {e : EvictionItem}
    (replaced : Bool) (hperm : s.lru.Perm ((k, e) :: rest)) :
    Sim [] s (State.remove { s with lru := rest } e replaced) := by
  have hsums : sumLens s.lru = e.data.len + sumLens rest := by
    simpa using Lru.sumLens_perm hperm
  refine ⟨?_, ?_, ⟨[e.data.id], rfl⟩, rfl, rfl⟩
  · rintro ⟨hsum, hnd⟩
    constructor
    · simp only [State.remove]
      omega
    · have := ((Lru.keys_perm hperm).nodup_iff).mp hnd
      simpa using this.of_cons
  · simp only [State.remove]
    have h1 : (ids rest ++ (s.unreffed ++ [e.data.id])).Perm
        (e.data.id :: (ids rest ++ s.unreffed)) := by
      rw [← List.append_assoc]
      exact List.perm_append_singleton _ _
    have h2 : (ids s.lru ++ s.unreffed).Perm
        (e.data.id :: (ids rest ++ s.unreffed)) := by
      have := Lru.ids_perm hperm
      simp only [ids_cons] at this
      exact this.append_right s.unreffed
    simpa using h1.trans h2.symm

/-- Each iteration of the eviction loop is a conservative step. -/
theorem rel_evictLoopFuel (m : EvictingMap) (elapsed : Int) (max_bytes : Nat) :
    ∀ (fuel : Nat) (s : State),
      Sim [] s (m.evictLoopFuel elapsed max_bytes fuel s)
  | 0, s => Sim.same s
  | fuel + 1, s => by
    cases hl : s.lru.getLast? with
    | none =>
      have heq : m.evictLoopFuel elapsed max_bytes (fuel + 1) s = s := by
        simp only [EvictingMap.evictLoopFuel, hl]
      rw [heq]
      exact Sim.same s
    | some kv =>
      obtain ⟨k, e⟩ := kv
      by_cases hse : m.should_evict elapsed s.lru.length e s.sum_store_size max_bytes = true
      · have heq : m.evictLoopFuel elapsed max_bytes (fuel + 1) s =
            m.evictLoopFuel elapsed max_bytes fuel
              (State.remove { s with lru := s.lru.dropLast } e false) := by
          simp only [EvictingMap.evictLoopFuel, hl]
          rw [if_pos hse]
        rw [heq]
        have step := rel_removeStep (s := s) false (perm_cons_dropLast_of_getLast? hl)
        have rest := rel_evictLoopFuel m elapsed max_bytes fuel
          (State.remove { s with lru := s.lru.dropLast } e false)
        simpa using step.trans rest
      · have heq : m.evictLoopFuel elapsed max_bytes (fuel + 1) s = s := by
          simp only [EvictingMap.evictLoopFuel, hl]
          rw [if_neg hse]
        rw [heq]
        exact Sim.same s

/-- `evict_items` is a conservative step. -/
theorem rel_evict_items (m : EvictingMap) (elapsed : Int) (s : State) :
    Sim [] s (m.evict_items elapsed s) := by
  rw [EvictingMap.evict_items]
  cases hl : s.lru.getLast? with
  | none => exact Sim.same s
  | some kv => exact rel_evictLoopFuel m elapsed _ s.lru.length s

/-- `touch_or_remove` is a conservative step on the state. -/
theorem rel_touch_or_remove (s : State) (digest : Nat) (data : Entry) :
    Sim [] s (touch_or_remove s digest data).1 := by
  rw [touch_or_remove]
  by_cases ht : data.touchOk
  · rw [if_pos ht]
    exact Sim.same s
  · rw [if_neg ht]
    cases hl : Lru.lookup s.lru digest with
    | none => exact Sim.same s
    | some e => exact rel_removeStep false (Lru.perm_cons_erase hl)

/-- The pre-eviction part of one `inner_insert_many` iteration brings in
exactly the new handle and (on replacement) retires the old one. -/
theorem rel_insertStep (m : EvictingMap) (elapsed seconds_since_anchor : Int)
    (s : State) (digest : Nat) (data : Entry) :
    Sim [data.id] s (m.insertStep elapsed seconds_since_anchor s digest data).1 := by
  rw [EvictingMap.insertStep]
  cases hl : Lru.lookup s.lru digest with
  | none =>
    rw [Lru.erase_of_lookup_none hl]
    have base : Sim [data.id] s
        { s with
          lru := (digest, { seconds_since_anchor := seconds_since_anchor, data := data }) ::
            s.lru
          sum_store_size := s.sum_store_size + data.len
          lifetime_inserted_bytes := s.lifetime_inserted_bytes + data.len } := by
      refine ⟨?_, by simp, ⟨[], by simp⟩, rfl, rfl⟩
      rintro ⟨hsum, hnd⟩
      refine ⟨by simp; omega, ?_⟩
      simp only [keys_cons, List.nodup_cons]
      exact ⟨Lru.lookup_none_iff.mp hl, hnd⟩
    simpa using base.trans (rel_evict_items m elapsed _)
  | some old_item =>
    have hperm := Lru.perm_cons_erase hl
    have hsums : sumLens s.lru = old_item.data.len + sumLens (Lru.erase s.lru digest) := by
      simpa using Lru.sumLens_perm hperm
    have base : Sim [data.id] s
        (let s1 := State.remove
          { s with
            lru := (digest,
              { seconds_since_anchor := seconds_since_anchor, data := data }) ::
              Lru.erase s.lru digest } old_item true
         { s1 with
           sum_store_size := s1.sum_store_size + data.len
           lifetime_inserted_bytes := s1.lifetime_inserted_bytes + data.len }) := by
      refine ⟨?_, ?_, ⟨[old_item.data.id], rfl⟩, rfl, rfl⟩
      · rintro ⟨hsum, hnd⟩
        constructor
        · simp only [State.remove, sumLens_cons]
          omega
        · exact Lru.nodup_keys_promote _ hnd
      · simp only [State.remove, ids_cons]
        have h1 : ((data.id :: ids (Lru.erase s.lru digest)) ++
            (s.unreffed ++ [old_item.data.id])).Perm
            (data.id :: old_item.data.id :: (ids (Lru.erase s.lru digest) ++ s.unreffed)) := by
          simp only [List.cons_append]
          refine List.Perm.cons data.id ?_
          rw [← List.append_assoc]
          exact List.perm_append_singleton _ _
        have h2 : ([data.id] ++ (ids s.lru ++ s.unreffed)).Perm
            (data.id :: old_item.data.id :: (ids (Lru.erase s.lru digest) ++ s.unreffed)) := by
          simp only [List.singleton_append, List.cons_append]
          refine List.Perm.cons data.id ?_
          have := Lru.ids_perm hperm
          simp only [ids_cons] at this
          exact this.append_right s.unreffed
        exact h1.trans h2.symm
    simpa using base.trans (rel_evict_items m elapsed _)

/-- `inner_insert_many` brings in exactly the ids of the inserted handles. -/
theorem rel_inner_insert_many (m : EvictingMap) (elapsed seconds_since_anchor : Int) :
    ∀ (pairs : List (Nat × Entry)) (s : State),
      Sim (pairs.map fun p => p.2.id) s
        (m.inner_insert_many elapsed seconds_since_anchor s pairs).1
  | [], s => Sim.same s
  | (digest, data) :: rest, s => by
    simp only [EvictingMap.inner_insert_many]
    have h1 := rel_insertStep m elapsed seconds_since_anchor s digest data
    have h2 := rel_inner_insert_many m elapsed seconds_since_anchor rest
      (m.insertStep elapsed seconds_since_anchor s digest data).1
    simpa using h1.trans h2

/-- The removal arm of `sizes_for_keys` is a sequence of conservative
steps. -/
theorem rel_removePhase : ∀ (digests : List Nat) (s : State),
    Sim [] s (removePhase s digests)
  | [], s => Sim.same s
  | digest :: rest, s => by
    simp only [removePhase]
    cases hl : Lru.lookup s.lru digest with
    | none => exact rel_removePhase rest s
    | some e =>
      have h1 := rel_removeStep (s := s) false (Lru.perm_cons_erase hl)
      have h2 := rel_removePhase rest
        (State.remove { s with lru := Lru.erase s.lru digest } e false)
      simpa using h1.trans h2

/-- The classification pass of `sizes_for_keys` only promotes entries. -/
theorem rel_classifyKeys (m : EvictingMap) (elapsed : Int) :
    ∀ (digests : List Nat) (s : State) (lru_len sum_store_size : Nat),
      Sim [] s (m.classifyKeys elapsed digests s lru_len sum_store_size).1
  | [], s, _, _ => Sim.same s
  | digest :: rest, s, lru_len, sum_store_size => by
    simp only [EvictingMap.classifyKeys]
    cases hl : Lru.lookup s.lru digest with
    | none =>
      simp only [Lru.get, hl]
      exact rel_classifyKeys m elapsed rest s lru_len sum_store_size
    | some e =>
      simp only [Lru.get, hl]
      have hpro := rel_setPerm (Lru.perm_cons_erase hl)
      by_cases hse : m.should_evict elapsed lru_len e sum_store_size m.max_bytes
      · rw [if_pos hse]
        have h2 := rel_classifyKeys m elapsed rest
          { s with lru := (digest, e) :: Lru.erase s.lru digest }
          (lru_len - 1) (sum_store_size - e.data.len)
        simpa using hpro.trans h2
      · rw [if_neg hse]
        have h2 := rel_classifyKeys m elapsed rest
          { s with lru := (digest, e) :: Lru.erase s.lru digest }
          lru_len sum_store_size
        simpa using hpro.trans h2

/-- The touch arm of `sizes_for_keys` is a sequence of conservative
steps. -/
theorem rel_touchPhase : ∀ (slots : List (Option Entry)) (digests : List Nat) (s : State),
    Sim [] s (touchPhase s digests slots).1
  | [], _, s => by simp only [touchPhase]; exact Sim.same s
  | _ :: _, [], s => by simp only [touchPhase]; exact Sim.same s
  | slot :: slots, digest :: rest, s => by
    simp only [touchPhase]
    cases slot with
    | none => exact rel_touchPhase slots rest s
    | some data =>
      have h1 := rel_touch_or_remove s digest data
      have h2 := rel_touchPhase slots rest (touch_or_remove s digest data).1
      simpa using h1.trans h2

/-- Every public operation other than `restore_lru` is conservative: it
preserves well-formedness, it conserves handle identities between the LRU
contents and the `unref()` trace (up to the handles it brings in), it only
appends to the trace, and it leaves the `removed_*` counters untouched. -/
theorem rel_runOp (m : EvictingMap) (elapsed : Int) (s : State) (op : Op)
    (hnr : op.nonRestore = true) :
    Sim op.newIds s (m.runOp elapsed s op) := by
  cases op with
  | get digest =>
    simp only [EvictingMap.runOp, EvictingMap.get, Op.newIds]
    have h1 := rel_evict_items m elapsed s
    cases hl : Lru.lookup (m.evict_items elapsed s).lru digest with
    | none =>
      simp only [Lru.get, hl]
      exact h1
    | some e =>
      simp only [Lru.get, hl]
      have h2 := rel_setPerm (s := m.evict_items elapsed s) (Lru.perm_cons_erase hl)
      have h3 := rel_touch_or_remove
        { m.evict_items elapsed s with lru := (digest, e) :: Lru.erase (m.evict_items elapsed s).lru digest }
        digest e.data
      simpa using (h1.trans h2).trans h3
  | insert digest data =>
    simpa [EvictingMap.runOp, EvictingMap.insert, EvictingMap.insert_with_time, Op.newIds]
      using rel_inner_insert_many m elapsed elapsed [(digest, data)] s
  | insertWithTime digest data ssa =>
    simpa [EvictingMap.runOp, EvictingMap.insert_with_time, Op.newIds]
      using rel_inner_insert_many m elapsed ssa [(digest, data)] s
  | insertMany pairs =>
    simpa [EvictingMap.runOp, EvictingMap.insert_many, Op.newIds]
      using rel_inner_insert_many m elapsed elapsed pairs s
  | remove digest =>
    simp only [EvictingMap.runOp, EvictingMap.remove, EvictingMap.inner_remove, Op.newIds]
    have h1 := rel_evict_items m elapsed s
    cases hl : Lru.lookup (m.evict_items elapsed s).lru digest with
    | none => exact h1
    | some e =>
      have h2 := rel_removeStep (s := m.evict_items elapsed s) false (Lru.perm_cons_erase hl)
      simpa using h1.trans h2
  | removeIf digest cond =>
    simp only [EvictingMap.runOp, EvictingMap.remove_if, Op.newIds]
    cases hl : Lru.lookup s.lru digest with
    | none =>
      simp only [Lru.get, hl]
      exact Sim.same s
    | some e =>
      simp only [Lru.get, hl]
      have h2 := rel_setPerm (Lru.perm_cons_erase hl)
      by_cases hc : cond e.data
      · rw [if_pos hc]
        simp only [EvictingMap.inner_remove]
        set s1 := { s with lru := (digest, e) :: Lru.erase s.lru digest }
        have h3 := rel_evict_items m elapsed s1
        cases hl2 : Lru.lookup (m.evict_items elapsed s1).lru digest with
        | none => simpa using h2.trans h3
        | some e2 =>
          have h4 := rel_removeStep (s := m.evict_items elapsed s1) false
            (Lru.perm_cons_erase hl2)
          simpa using (h2.trans h3).trans h4
      · rw [if_neg hc]
        exact h2
  | sizesForKeys digests =>
    simp only [EvictingMap.runOp, EvictingMap.sizes_for_keys, Op.newIds]
    have h1 := rel_classifyKeys m elapsed digests s s.lru.length s.sum_store_size
    have h2 := rel_removePhase
      (m.classifyKeys elapsed digests s s.lru.length s.sum_store_size).2.1
      (m.classifyKeys elapsed digests s s.lru.length s.sum_store_size).1
    have h3 := rel_touchPhase
      (m.classifyKeys elapsed digests s s.lru.length s.sum_store_size).2.2 digests
      (removePhase (m.classifyKeys elapsed digests s s.lru.length s.sum_store_size).1
        (m.classifyKeys elapsed digests s s.lru.length s.sum_store_size).2.1)
    simpa using (h1.trans h2).trans h3
  | buildLruIndex =>
    simpa [EvictingMap.runOp, EvictingMap.build_lru_index, Op.newIds]
      using rel_evict_items m elapsed s
  | restoreLru ser eb => simp [Op.nonRestore] at hnr

/-! ### Eviction-loop postcondition and length bounds -/

theorem evictLoopFuel_post (m : EvictingMap) (elapsed : Int) (max_bytes : Nat) :
    ∀ (fuel : Nat) (s : State), s.lru.length ≤ fuel →
      (m.evictLoopFuel elapsed max_bytes fuel s).lru = [] ∨
      ∃ k e, (m.evictLoopFuel elapsed max_bytes fuel s).lru.getLast? = some (k, e) ∧
        m.should_evict elapsed (m.evictLoopFuel elapsed max_bytes fuel s).lru.length e
          (m.evictLoopFuel elapsed max_bytes fuel s).sum_store_size max_bytes = false
  | 0, s, hf => by
    left
    have h0 : s.lru.length = 0 := Nat.le_zero.mp hf
    have : s.lru = [] := List.length_eq_zero.mp h0
    simpa [EvictingMap.evictLoopFuel] using this
  | fuel + 1, s, hf => by
    cases hl : s.lru.getLast? with
    | none =>
      left
      have heq : m.evictLoopFuel elapsed max_bytes (fuel + 1) s = s := by
        simp only [EvictingMap.evictLoopFuel, hl]
      rw [heq]
      exact List.getLast?_eq_none_iff.mp hl
    | some kv =>
      obtain ⟨k, e⟩ := kv
      have hne : s.lru ≠ [] := by
        intro h
        rw [h] at hl
        simp at hl
      by_cases hse : m.should_evict elapsed s.lru.length e s.sum_store_size max_bytes = true
      · have heq : m.evictLoopFuel elapsed max_bytes (fuel + 1) s =
            m.evictLoopFuel elapsed max_bytes fuel
              (State.remove { s with lru := s.lru.dropLast } e false) := by
          simp only [EvictingMap.evictLoopFuel, hl]
          rw [if_pos hse]
        rw [heq]
        refine evictLoopFuel_post m elapsed max_bytes fuel _ ?_
        have hlen : s.lru.length ≠ 0 := fun h => hne (List.length_eq_zero.mp h)
        simp only [State.remove, List.length_dropLast]
        omega
      · have heq : m.evictLoopFuel elapsed max_bytes (fuel + 1) s = s := by
          simp only [EvictingMap.evictLoopFuel, hl]
          rw [if_neg hse]
        rw [heq]
        exact Or.inr ⟨k, e, hl, by simpa using hse⟩

@[simp] theorem State.remove_lru (s : State) (e : EvictionItem) (r : Bool) :
    (State.remove s e r).lru = s.lru := rfl

/-- Characterization of the three-way eviction test. -/
theorem should_evict_iff (m : EvictingMap) (elapsed : Int) (n : Nat)
    (e : EvictionItem) (sum mb : Nat) :
    m.should_evict elapsed n e sum mb = true ↔
      (mb ≠ 0 ∧ mb ≤ sum) ∨
      (m.max_seconds ≠ 0 ∧ e.seconds_since_anchor < elapsed - m.max_seconds) ∨
      (m.max_count ≠ 0 ∧ m.max_count < n) := by
  simp only [EvictingMap.should_evict, Bool.or_eq_true, Bool.and_eq_true, bne_iff_ne,
    decide_eq_true_eq, ge_iff_le, gt_iff_lt]
  tauto

theorem should_evict_false_count {m : EvictingMap} {elapsed : Int} {n : Nat}
    {e : EvictionItem} {sum mb : Nat}
    (h : m.should_evict elapsed n e sum mb = false) (hc : m.max_count ≠ 0) :
    n ≤ m.max_count := by
  have h' : ¬ (m.should_evict elapsed n e sum mb = true) := by simp [h]
  rw [should_evict_iff] at h'
  push_neg at h'
  exact h'.2.2 hc

theorem should_evict_false_size {m : EvictingMap} {elapsed : Int} {n : Nat}
    {e : EvictionItem} {sum mb : Nat}
    (h : m.should_evict elapsed n e sum mb = false) (hb : mb ≠ 0) :
    sum < mb := by
  have h' : ¬ (m.should_evict elapsed n e sum mb = true) := by simp [h]
  rw [should_evict_iff] at h'
  push_neg at h'
  exact h'.1 hb

theorem evictLoopFuel_count (m : EvictingMap) (elapsed : Int) (mb : Nat) (s : State)
    (hc : m.max_count ≠ 0) :
    (m.evictLoopFuel elapsed mb s.lru.length s).lru.length ≤ m.max_count := by
  rcases evictLoopFuel_post m elapsed mb s.lru.length s (le_refl _) with hempty | ⟨k, e, _, hse⟩
  · simp [hempty]
  · exact should_evict_false_count hse hc

theorem evict_items_count (m : EvictingMap) (elapsed : Int) (s : State)
    (hc : m.max_count ≠ 0) :
    (m.evict_items elapsed s).lru.length ≤ m.max_count := by
  rw [EvictingMap.evict_items]
  cases hl : s.lru.getLast? with
  | none =>
    have : s.lru = [] := List.getLast?_eq_none_iff.mp hl
    simp [this]
  | some kv =>
    obtain ⟨k0, e0⟩ := kv
    exact evictLoopFuel_count m elapsed _ s hc

theorem evictLoopFuel_length_le (m : EvictingMap) (elapsed : Int) (max_bytes : Nat) :
    ∀ (fuel : Nat) (s : State),
      (m.evictLoopFuel elapsed max_bytes fuel s).lru.length ≤ s.lru.length
  | 0, s => le_refl _
  | fuel + 1, s => by
    cases hl : s.lru.getLast? with
    | none =>
      have heq : m.evictLoopFuel elapsed max_bytes (fuel + 1) s = s := by
        simp only [EvictingMap.evictLoopFuel, hl]
      rw [heq]
    | some kv =>
      obtain ⟨k, e⟩ := kv
      by_cases hse : m.should_evict elapsed s.lru.length e s.sum_store_size max_bytes = true
      · have heq : m.evictLoopFuel elapsed max_bytes (fuel + 1) s =
            m.evictLoopFuel elapsed max_bytes fuel
              (State.remove { s with lru := s.lru.dropLast } e false) := by
          simp only [EvictingMap.evictLoopFuel, hl]
          rw [if_pos hse]
        rw [heq]
        have hthis := evictLoopFuel_length_le m elapsed max_bytes fuel
          (State.remove { s with lru := s.lru.dropLast } e false)
        rw [State.remove_lru] at hthis
        simp only [List.length_dropLast] at hthis
        omega
      · have heq : m.evictLoopFuel elapsed max_bytes (fuel + 1) s = s := by
          simp only [EvictingMap.evictLoopFuel, hl]
          rw [if_neg hse]
        rw [heq]

theorem evict_items_length_le (m : EvictingMap) (elapsed : Int) (s : State) :
    (m.evict_items elapsed s).lru.length ≤ s.lru.length := by
  rw [EvictingMap.evict_items]
  cases hl : s.lru.getLast? with
  | none => exact le_refl _
  | some kv => exact evictLoopFuel_length_le m elapsed _ s.lru.length s

theorem touch_or_remove_length_le (s : State) (digest : Nat) (data : Entry) :
    (touch_or_remove s digest data).1.lru.length ≤ s.lru.length := by
  rw [touch_or_remove]
  by_cases ht : data.touchOk
  · rw [if_pos ht]
  · rw [if_neg ht]
    cases hl : Lru.lookup s.lru digest with
    | none => exact le_refl _
    | some e =>
      simp only [State.remove]
      exact Lru.length_erase_le s.lru digest

theorem removePhase_length_le : ∀ (digests : List Nat) (s : State),
    (removePhase s digests).lru.length ≤ s.lru.length
  | [], s => le_refl _
  | digest :: rest, s => by
    cases hl : Lru.lookup s.lru digest with
    | none =>
      have heq : removePhase s (digest :: rest) = removePhase s rest := by
        simp only [removePhase, hl]
      rw [heq]
      exact removePhase_length_le rest s
    | some e =>
      have heq : removePhase s (digest :: rest) =
          removePhase (State.remove { s with lru := Lru.erase s.lru digest } e false) rest := by
        simp only [removePhase, hl]
      rw [heq]
      have h1 : (removePhase (State.remove { s with lru := Lru.erase s.lru digest } e false)
          rest).lru.length ≤ (Lru.erase s.lru digest).length :=
        removePhase_length_le rest _
      have h2 := Lru.length_erase_le s.lru digest
      omega

theorem classifyKeys_length_le (m : EvictingMap) (elapsed : Int) :
    ∀ (digests : List Nat) (s : State) (lru_len sum_store_size : Nat),
      (m.classifyKeys elapsed digests s lru_len sum_store_size).1.lru.length ≤ s.lru.length
  | [], s, _, _ => le_refl _
  | digest :: rest, s, lru_len, sum_store_size => by
    cases hl : Lru.lookup s.lru digest with
    | none =>
      have heq : (m.classifyKeys elapsed (digest :: rest) s lru_len sum_store_size).1 =
          (m.classifyKeys elapsed rest s lru_len sum_store_size).1 := by
        simp only [EvictingMap.classifyKeys, Lru.get, hl]
      rw [heq]
      exact classifyKeys_length_le m elapsed rest s lru_len sum_store_size
    | some e =>
      have hlen := Lru.length_promote hl
      by_cases hse : m.should_evict elapsed lru_len e sum_store_size m.max_bytes = true
      · have heq : (m.classifyKeys elapsed (digest :: rest) s lru_len sum_store_size).1 =
            (m.classifyKeys elapsed rest
              { s with lru := (digest, e) :: Lru.erase s.lru digest }
              (lru_len - 1) (sum_store_size - e.data.len)).1 := by
          simp only [EvictingMap.classifyKeys, Lru.get, hl]
          rw [if_pos hse]
        rw [heq]
        have hthis : (m.classifyKeys elapsed rest
            { s with lru := (digest, e) :: Lru.erase s.lru digest }
            (lru_len - 1) (sum_store_size - e.data.len)).1.lru.length ≤
            ((digest, e) :: Lru.erase s.lru digest).length :=
          classifyKeys_length_le m elapsed rest _ _ _
        omega
      · have heq : (m.classifyKeys elapsed (digest :: rest) s lru_len sum_store_size).1 =
            (m.classifyKeys elapsed rest
              { s with lru := (digest, e) :: Lru.erase s.lru digest }
              lru_len sum_store_size).1 := by
          simp only [EvictingMap.classifyKeys, Lru.get, hl]
          rw [if_neg hse]
        rw [heq]
        have hthis : (m.classifyKeys elapsed rest
            { s with lru := (digest, e) :: Lru.erase s.lru digest }
            lru_len sum_store_size).1.lru.length ≤
            ((digest, e) :: Lru.erase s.lru digest).length :=
          classifyKeys_length_le m elapsed rest _ _ _
        omega

theorem touchPhase_length_le :
    ∀ (slots : List (Option Entry)) (digests : List Nat) (s : State),
      (touchPhase s digests slots).1.lru.length ≤ s.lru.length
  | [], _, s => by simp only [touchPhase]; exact le_refl _
  | _ :: _, [], s => by simp only [touchPhase]; exact le_refl _
  | slot :: slots, digest :: rest, s => by
    cases slot with
    | none =>
      have heq : (touchPhase s (digest :: rest) (none :: slots)).1 =
          (touchPhase s rest slots).1 := by
        simp only [touchPhase]
      rw [heq]
      exact touchPhase_length_le slots rest s
    | some data =>
      have heq : (touchPhase s (digest :: rest) (some data :: slots)).1 =
          (touchPhase (touch_or_remove s digest data).1 rest slots).1 := by
        simp only [touchPhase]
      rw [heq]
      have h1 := touchPhase_length_le slots rest (touch_or_remove s digest data).1
      have h2 := touch_or_remove_length_le s digest data
      omega

theorem inner_insert_many_count (m : EvictingMap) (elapsed ssa : Int)
    (hc : m.max_count ≠ 0) :
    ∀ (pairs : List (Nat × Entry)) (s : State), s.lru.length ≤ m.max_count →
      (m.inner_insert_many elapsed ssa s pairs).1.lru.length ≤ m.max_count
  | [], s, hs => hs
  | (digest, data) :: rest, s, hs => by
    simp only [EvictingMap.inner_insert_many]
    refine inner_insert_many_count m elapsed ssa hc rest _ ?_
    simp only [EvictingMap.insertStep]
    exact evict_items_count m elapsed _ hc

/-- After any public operation on a state within the count limit, the entry
count is still within the limit (and operations that end in an eviction
pass re-establish it unconditionally). -/
theorem runOp_count (m : EvictingMap) (elapsed : Int) (op : Op) (s : State)
    (hc : m.max_count ≠ 0) (hs : s.lru.length ≤ m.max_count) :
    (m.runOp elapsed s op).lru.length ≤ m.max_count := by
  cases op with
  | get digest =>
    simp only [EvictingMap.runOp, EvictingMap.get]
    have h1 := evict_items_count m elapsed s hc
    cases hl : Lru.lookup (m.evict_items elapsed s).lru digest with
    | none => simp only [Lru.get, hl]; exact h1
    | some e =>
      simp only [Lru.get, hl]
      have h2 := touch_or_remove_length_le
        { m.evict_items elapsed s with
          lru := (digest, e) :: Lru.erase (m.evict_items elapsed s).lru digest }
        digest e.data
      have h3 := Lru.length_promote hl
      simp only at h2
      omega
  | insert digest data =>
    simp only [EvictingMap.runOp, EvictingMap.insert, EvictingMap.insert_with_time]
    exact inner_insert_many_count m elapsed elapsed hc [(digest, data)] s hs
  | insertWithTime digest data ssa =>
    simp only [EvictingMap.runOp, EvictingMap.insert_with_time]
    exact inner_insert_many_count m elapsed ssa hc [(digest, data)] s hs
  | insertMany pairs =>
    simp only [EvictingMap.runOp, EvictingMap.insert_many]
    exact inner_insert_many_count m elapsed elapsed hc pairs s hs
  | remove digest =>
    simp only [EvictingMap.runOp, EvictingMap.remove, EvictingMap.inner_remove]
    have h1 := evict_items_count m elapsed s hc
    cases hl : Lru.lookup (m.evict_items elapsed s).lru digest with
    | none => exact h1
    | some e =>
      simp only [State.remove]
      have := Lru.length_erase_le (m.evict_items elapsed s).lru digest
      omega
  | removeIf digest cond =>
    simp only [EvictingMap.runOp, EvictingMap.remove_if]
    cases hl : Lru.lookup s.lru digest with
    | none => simp only [Lru.get, hl]; exact hs
    | some e =>
      simp only [Lru.get, hl]
      have hlen := Lru.length_promote hl
      by_cases hcnd : cond e.data = true
      · rw [if_pos hcnd]
        simp only [EvictingMap.inner_remove]
        set s1 := { s with lru := (digest, e) :: Lru.erase s.lru digest }
        have h1 := evict_items_count m elapsed s1 hc
        cases hl2 : Lru.lookup (m.evict_items elapsed s1).lru digest with
        | none => exact h1
        | some e2 =>
          simp only [State.remove]
          have := Lru.length_erase_le (m.evict_items elapsed s1).lru digest
          omega
      · rw [if_neg hcnd]
        simp only
        omega
  | sizesForKeys digests =>
    simp only [EvictingMap.runOp, EvictingMap.sizes_for_keys]
    have h1 := classifyKeys_length_le m elapsed digests s s.lru.length s.sum_store_size
    have h2 := removePhase_length_le
      (m.classifyKeys elapsed digests s s.lru.length s.sum_store_size).2.1
      (m.classifyKeys elapsed digests s s.lru.length s.sum_store_size).1
    have h3 := touchPhase_length_le
      (m.classifyKeys elapsed digests s s.lru.length s.sum_store_size).2.2 digests
      (removePhase (m.classifyKeys elapsed digests s s.lru.length s.sum_store_size).1
        (m.classifyKeys elapsed digests s s.lru.length s.sum_store_size).2.1)
    omega
  | buildLruIndex =>
    simp only [EvictingMap.runOp, EvictingMap.build_lru_index]
    exact evict_items_count m elapsed s hc
  | restoreLru ser eb =>
    simp only [EvictingMap.runOp, EvictingMap.restore_lru]
    exact evict_items_count _ elapsed _ hc

/-! ### Byte-budget convergence support -/

theorem evictLoop_sum_bound (m : EvictingMap) (elapsed : Int) (mb : Nat) (s : State)
    (hwf : s.WF) (hmb : mb ≠ 0) :
    (m.evictLoopFuel elapsed mb s.lru.length s).sum_store_size < mb ∨
    (m.evictLoopFuel elapsed mb s.lru.length s).sum_store_size = 0 := by
  rcases evictLoopFuel_post m elapsed mb s.lru.length s (le_refl _) with hempty | ⟨k, e, _, hse⟩
  · right
    have hwf' := (rel_evictLoopFuel m elapsed mb s.lru.length s).wf hwf
    rw [hwf'.1, hempty]
    rfl
  · left
    exact should_evict_false_size hse hmb

/-- Inserting a fresh key whose size pushes the aggregate strictly past the
byte budget leaves, after the per-insert eviction pass, an aggregate of at
most `max_bytes - evict_bytes`. -/
theorem insert_byte_convergence (m : EvictingMap) (elapsed age : Int) (s : State)
    (k : Nat) (e : Entry) (hwf : s.WF) (hEB : m.evict_bytes < m.max_bytes)
    (habsent : Lru.lookup s.lru k = none)
    (hover : m.max_bytes < s.sum_store_size + e.len) :
    (m.insert_with_time elapsed s k e age).1.sum_store_size ≤
      m.max_bytes - m.evict_bytes := by
  have hmb : m.max_bytes ≠ 0 := by omega
  set item : EvictionItem := { seconds_since_anchor := age, data := e } with hitem
  set s1 : State := { s with
    lru := (k, item) :: s.lru
    sum_store_size := s.sum_store_size + e.len
    lifetime_inserted_bytes := s.lifetime_inserted_bytes + e.len } with hs1
  have heq : (m.insert_with_time elapsed s k e age).1 = m.evict_items elapsed s1 := by
    simp only [EvictingMap.insert_with_time, EvictingMap.inner_insert_many,
      EvictingMap.insertStep, habsent, Lru.erase_of_lookup_none habsent, hs1, hitem]
  rw [heq]
  have hwf1 : s1.WF := by
    obtain ⟨hsum, hnd⟩ := hwf
    refine ⟨?_, ?_⟩
    · simp only [hs1, sumLens_cons]
      omega
    · simp only [hs1, keys_cons, List.nodup_cons]
      exact ⟨Lru.lookup_none_iff.mp habsent, hnd⟩
  have hsum1 : s1.sum_store_size = s.sum_store_size + e.len := rfl
  cases hl : s1.lru.getLast? with
  | none =>
    exfalso
    have hnil : s1.lru = [] := List.getLast?_eq_none_iff.mp hl
    simp [hs1] at hnil
  | some kv =>
    obtain ⟨k2, e2⟩ := kv
    have heq2 : m.evict_items elapsed s1 =
        m.evictLoopFuel elapsed
          (if m.max_bytes != 0 && m.evict_bytes != 0 &&
              m.should_evict elapsed s1.lru.length e2 s1.sum_store_size m.max_bytes then
            if m.evict_bytes < m.max_bytes then m.max_bytes - m.evict_bytes else 0
          else m.max_bytes) s1.lru.length s1 := by
      rw [EvictingMap.evict_items]
      simp only [hl]
    rw [heq2]
    have hse0 : m.should_evict elapsed s1.lru.length e2 s1.sum_store_size m.max_bytes
        = true := by
      rw [should_evict_iff]
      left
      exact ⟨hmb, by omega⟩
    by_cases hEB0 : m.evict_bytes = 0
    · have hcond : (m.max_bytes != 0 && m.evict_bytes != 0 &&
          m.should_evict elapsed s1.lru.length e2 s1.sum_store_size m.max_bytes) = false := by
        rw [hse0]
        simp [hEB0]
      have hbud : (if m.max_bytes != 0 && m.evict_bytes != 0 &&
            m.should_evict elapsed s1.lru.length e2 s1.sum_store_size m.max_bytes then
          if m.evict_bytes < m.max_bytes then m.max_bytes - m.evict_bytes else 0
        else m.max_bytes) = m.max_bytes := by
        rw [if_neg (by
          intro hcontra
          rw [hcond] at hcontra
          exact Bool.false_ne_true hcontra)]
      rw [hbud]
      rcases evictLoop_sum_bound m elapsed m.max_bytes s1 hwf1 hmb with h | h
      · omega
      · omega
    · have hcond : (m.max_bytes != 0 && m.evict_bytes != 0 &&
          m.should_evict elapsed s1.lru.length e2 s1.sum_store_size m.max_bytes) = true := by
        rw [hse0]
        simp [bne_iff_ne, hmb, hEB0]
      have hbud : (if m.max_bytes != 0 && m.evict_bytes != 0 &&
            m.should_evict elapsed s1.lru.length e2 s1.sum_store_size m.max_bytes then
          if m.evict_bytes < m.max_bytes then m.max_bytes - m.evict_bytes else 0
        else m.max_bytes) = m.max_bytes - m.evict_bytes := by
        rw [if_pos hcond, if_pos hEB]
      rw [hbud]
      have hmbe : m.max_bytes - m.evict_bytes ≠ 0 := by omega
      rcases evictLoop_sum_bound m elapsed (m.max_bytes - m.evict_bytes) s1 hwf1 hmbe with h | h
      · omega
      · omega

/-! ### The `removed_*` counters never move -/

theorem restorePuts_removed (entry_builder : Nat → Entry) :
    ∀ (dataL : List (Nat × Int)) (s : State),
      (restorePuts entry_builder s dataL).removed_items = s.removed_items ∧
      (restorePuts entry_builder s dataL).removed_bytes = s.removed_bytes
  | [], s => ⟨rfl, rfl⟩
  | kv :: rest, s => restorePuts_removed entry_builder rest _

/-- No public operation - `remove` and `remove_if` included - ever changes
the `removed_items` / `removed_bytes` counters: `State::remove` is always
invoked with only the `replaced` flag, so explicit removals are booked on
the evicted counters and the removed counters are dead. -/
theorem runOp_removed (m : EvictingMap) (elapsed : Int) (op : Op) (s : State) :
    (m.runOp elapsed s op).removed_items = s.removed_items ∧
    (m.runOp elapsed s op).removed_bytes = s.removed_bytes := by
  cases hop : op.nonRestore with
  | true =>
    exact ⟨(rel_runOp m elapsed s op hop).removedI, (rel_runOp m elapsed s op hop).removedB⟩
  | false =>
    cases op with
    | restoreLru ser eb =>
      simp only [EvictingMap.runOp, EvictingMap.restore_lru]
      have h1 := rel_evict_items { m with anchor_ts := ser.anchor_time } elapsed
        (restorePuts eb { s with lru := [] } ser.data)
      have h2 := restorePuts_removed eb ser.data { s with lru := [] }
      exact ⟨h1.removedI.trans h2.1, h1.removedB.trans h2.2⟩
    | get d => simp [Op.nonRestore] at hop
    | insert d e => simp [Op.nonRestore] at hop
    | insertWithTime d e a => simp [Op.nonRestore] at hop
    | insertMany p => simp [Op.nonRestore] at hop
    | remove d => simp [Op.nonRestore] at hop
    | removeIf d c => simp [Op.nonRestore] at hop
    | sizesForKeys ds => simp [Op.nonRestore] at hop
    | buildLruIndex => simp [Op.nonRestore] at hop

/-! ### Unref-exactly-once, derived from the conservation relation -/

/-- For any non-`restore_lru` operation from a well-formed state with
globally distinct handle identities: the `unref()` trace grows by a
duplicate-free batch `t`; every handle in `t` is out of the map afterwards;
and every handle that was present (or was brought in by the operation) and
is absent afterwards occurs in `t` - i.e. is unreffed exactly once, while
handles still present are never unreffed. -/
theorem unref_once_aux (m : EvictingMap) (elapsed : Int) (op : Op) (s : State)
    (hnr : op.nonRestore = true) (hwf : s.WF)
    (hnd : (op.newIds ++ (ids s.lru ++ s.unreffed)).Nodup) :
    ∃ t, (m.runOp elapsed s op).unreffed = s.unreffed ++ t ∧ t.Nodup ∧
      (∀ i ∈ t, i ∉ ids (m.runOp elapsed s op).lru) ∧
      (∀ i, (i ∈ ids s.lru ∨ i ∈ op.newIds) →
        i ∉ ids (m.runOp elapsed s op).lru → i ∈ t) := by
  have hsim := rel_runOp m elapsed s op hnr
  obtain ⟨t, ht⟩ := hsim.logExt
  have hndafter : (ids (m.runOp elapsed s op).lru ++ (m.runOp elapsed s op).unreffed).Nodup :=
    (hsim.perm.nodup_iff).mpr hnd
  rw [ht, List.nodup_append] at hndafter
  obtain ⟨hnd1, hnd2, hdisj⟩ := hndafter
  rw [List.nodup_append] at hnd2
  obtain ⟨hndlog, hndt, hdisj2⟩ := hnd2
  refine ⟨t, ht, hndt, ?_, ?_⟩
  · intro i hit hlru
    exact hdisj hlru (List.mem_append_right _ hit)
  · intro i hi hnotin
    have himem : i ∈ op.newIds ++ (ids s.lru ++ s.unreffed) := by
      rcases hi with hi | hi
      · exact List.mem_append_right _ (List.mem_append_left _ hi)
      · exact List.mem_append_left _ hi
    have h2 : i ∈ ids (m.runOp elapsed s op).lru ++ (m.runOp elapsed s op).unreffed :=
      (hsim.perm.mem_iff).mpr himem
    rw [ht] at h2
    rcases List.mem_append.mp h2 with h2 | h2
    · exact absurd h2 hnotin
    rcases List.mem_append.mp h2 with h2 | h2
    · exfalso
      rcases hi with hi | hi
      · have hinner : (ids s.lru ++ s.unreffed).Nodup := (List.nodup_append.mp hnd).2.1
        exact (List.nodup_append.mp hinner).2.2 hi h2
      · exact (List.nodup_append.mp hnd).2.2 hi (List.mem_append_right _ h2)
    · exact h2

/-! ### Equation lemmas and the age-eviction behaviour of `get` -/

theorem get_eq (m : EvictingMap) (elapsed : Int) (s : State) (digest : Nat) :
    m.get elapsed s digest =
      match Lru.get (m.evict_items elapsed s).lru digest with
      | (none, _) => (m.evict_items elapsed s, none)
      | (some entry, lru2) =>
        touch_or_remove { m.evict_items elapsed s with lru := lru2 } digest entry.data := rfl

theorem evict_items_eq (m : EvictingMap) (elapsed : Int) (s : State) (k : Nat)
    (e : EvictionItem) (hl : s.lru.getLast? = some (k, e)) :
    m.evict_items elapsed s =
      m.evictLoopFuel elapsed
        (if m.max_bytes != 0 && m.evict_bytes != 0 &&
            m.should_evict elapsed s.lru.length e s.sum_store_size m.max_bytes then
          if m.evict_bytes < m.max_bytes then m.max_bytes - m.evict_bytes else 0
        else m.max_bytes) s.lru.length s := by
  rw [EvictingMap.evict_items]
  simp only [hl]

/-- With only the age limit configured, `get` on a never-touched single
entry of age `t` returns the entry exactly while `elapsed - t ≤ max_seconds`
and `none` (the entry having been evicted) once `elapsed - t > max_seconds`. -/
theorem get_single_entry_age (S t elapsed : Int) (key A : Nat) (ent : Entry)
    (hS : S ≠ 0) (htouch : ent.touchOk = true) :
    ((⟨0, 0, S, 0, A⟩ : EvictingMap).get elapsed
      (⟨[(key, ⟨t, ent⟩)], ent.len, 0, 0, 0, 0, 0, 0, 0, []⟩ : State) key).2 =
      if elapsed - t ≤ S then some ent else none := by
  set s0 : State := ⟨[(key, ⟨t, ent⟩)], ent.len, 0, 0, 0, 0, 0, 0, 0, []⟩ with hs0
  have h1 : (⟨0, 0, S, 0, A⟩ : EvictingMap).evict_items elapsed s0 =
      (⟨0, 0, S, 0, A⟩ : EvictingMap).evictLoopFuel elapsed 0 1 s0 := rfl
  have h2 : (⟨0, 0, S, 0, A⟩ : EvictingMap).evictLoopFuel elapsed 0 1 s0 =
      if (⟨0, 0, S, 0, A⟩ : EvictingMap).should_evict elapsed 1 ⟨t, ent⟩ ent.len 0 then
        (⟨0, 0, S, 0, A⟩ : EvictingMap).evictLoopFuel elapsed 0 0
          (State.remove { s0 with lru := [] } ⟨t, ent⟩ false)
      else s0 := rfl
  by_cases hage : t < elapsed - S
  · have hse : (⟨0, 0, S, 0, A⟩ : EvictingMap).should_evict elapsed 1 ⟨t, ent⟩ ent.len 0
        = true := by
      rw [should_evict_iff]
      exact Or.inr (Or.inl ⟨hS, hage⟩)
    have hev2 : (⟨0, 0, S, 0, A⟩ : EvictingMap).evict_items elapsed s0 =
        State.remove { s0 with lru := [] } ⟨t, ent⟩ false := by
      rw [h1, h2, if_pos hse]
      rfl
    have hres : (⟨0, 0, S, 0, A⟩ : EvictingMap).get elapsed s0 key =
        (State.remove { s0 with lru := [] } ⟨t, ent⟩ false, none) := by
      rw [get_eq, hev2]
      rfl
    rw [hres, if_neg (by omega : ¬ (elapsed - t ≤ S))]
  · have hse : ¬ ((⟨0, 0, S, 0, A⟩ : EvictingMap).should_evict elapsed 1 ⟨t, ent⟩ ent.len 0
        = true) := by
      rw [should_evict_iff]
      rintro (⟨h0, -⟩ | ⟨-, hlt⟩ | ⟨h0, -⟩)
      · exact h0 rfl
      · exact hage hlt
      · exact h0 rfl
    have hev2 : (⟨0, 0, S, 0, A⟩ : EvictingMap).evict_items elapsed s0 = s0 := by
      rw [h1, h2, if_neg hse]
    have hget : Lru.get s0.lru key = (some ⟨t, ent⟩, [(key, (⟨t, ent⟩ : EvictionItem))]) := by
      simp [Lru.get, Lru.lookup, Lru.erase, hs0]
    have hres : (⟨0, 0, S, 0, A⟩ : EvictingMap).get elapsed s0 key =
        ({ s0 with lru := [(key, (⟨t, ent⟩ : EvictionItem))] }, some ent) := by
      rw [get_eq, hev2, hget]
      show touch_or_remove { s0 with lru := [(key, (⟨t, ent⟩ : EvictionItem))] } key ent = _
      rw [touch_or_remove, if_pos htouch]
    rw [hres, if_pos (by omega : elapsed - t ≤ S)]

/-! ### Models of the C4 budget-lowering descriptions -/

/-- Modelled from the claim's words: the eviction pass lowers the byte
budget to `max_bytes - evict_bytes` (clamped at zero by the truncated
subtraction) only when `max_bytes` and `evict_bytes` are both nonzero and
the unshrunk byte budget is currently breached (aggregate at or above
`max_bytes`); in every other case it evaluates the loop against the
unmodified `max_bytes`. -/
def evict_items_per_claim (m : EvictingMap) (elapsed : Int) (s : State) : State :=
  match s.lru.getLast? with
  | none => s
  | some _ =>
    let max_bytes :=
      if m.max_bytes ≠ 0 ∧ m.evict_bytes ≠ 0 ∧ m.max_bytes ≤ s.sum_store_size then
        m.max_bytes - m.evict_bytes
      else m.max_bytes
    m.evictLoopFuel elapsed max_bytes s.lru.length s

/-- The amended budget rule: lowered to `max_bytes - evict_bytes` (clamped
at zero) whenever `max_bytes` and `evict_bytes` are both nonzero and the
eviction policy triggers against the unshrunk budget for any of its three
reasons (size, age, or count); otherwise the unmodified `max_bytes`. -/
def evict_items_amended (m : EvictingMap) (elapsed : Int) (s : State) : State :=
  match s.lru.getLast? with
  | none => s
  | some (_, peek_entry) =>
    let max_bytes :=
      if m.max_bytes ≠ 0 ∧ m.evict_bytes ≠ 0 ∧
          m.should_evict elapsed s.lru.length peek_entry s.sum_store_size m.max_bytes
            = true then
        m.max_bytes - m.evict_bytes
      else m.max_bytes
    m.evictLoopFuel elapsed max_bytes s.lru.length s

/-! ### Claim theorems -/

/-- C1 (amended): after every public operation other than `restore_lru`
(`get`, `insert`, `insert_with_time`, `insert_many`, `remove`, `remove_if`,
`sizes_for_keys`, `build_lru_index`) on a well-formed state, the running
aggregate `sum_store_size` again equals the sum of `len()` over all entries
currently present in the LRU map (and keys stay unique).  `restore_lru` is
excluded: it neither resets nor accumulates the aggregate. -/
theorem sum_invariant_after_nonrestore_ops (m : EvictingMap) (elapsed : Int)
    (op : Op) (s : State) (hnr : op.nonRestore = true) (hwf : s.WF) :
    (m.runOp elapsed s op).WF :=
  (rel_runOp m elapsed s op hnr).wf hwf

/-- Witness for C1's theorem: inserting one 5-byte entry into the fresh
cache, evaluated concretely. -/
theorem sum_invariant_after_nonrestore_ops_witness :
    Op.nonRestore (Op.insert 1 ⟨1, 5, true⟩) = true ∧ State.initial.WF ∧
    ((⟨0, 0, 0, 0, 0⟩ : EvictingMap).runOp 0 State.initial (Op.insert 1 ⟨1, 5, true⟩)).WF :=
  ⟨rfl, by decide,
    sum_invariant_after_nonrestore_ops ⟨0, 0, 0, 0, 0⟩ 0 (Op.insert 1 ⟨1, 5, true⟩)
      State.initial rfl (by decide)⟩

/-- C1 counterexample: `restore_lru` violates the claimed invariant.  On a
fresh cache, restoring a snapshot with one key whose rebuilt handle has
`len() = 5` leaves `sum_store_size = 0` while the entries in the map sum to
`5`, because the Rust loop `put`s restored entries without updating the
aggregate. -/
theorem restore_lru_breaks_sum_invariant :
    ((⟨0, 0, 0, 0, 0⟩ : EvictingMap).restore_lru 0 State.initial
        ⟨[(1, 0)], 0⟩ (fun k => ⟨k + 10, 5, true⟩)).2.sum_store_size = 0 ∧
    sumLens ((⟨0, 0, 0, 0, 0⟩ : EvictingMap).restore_lru 0 State.initial
        ⟨[(1, 0)], 0⟩ (fun k => ⟨k + 10, 5, true⟩)).2.lru = 5 ∧
    ¬ ((⟨0, 0, 0, 0, 0⟩ : EvictingMap).restore_lru 0 State.initial
        ⟨[(1, 0)], 0⟩ (fun k => ⟨k + 10, 5, true⟩)).2.WF := by decide

/-- C2 (amended): for every public operation other than `restore_lru`, run
from a well-formed state whose handle identities (in the map, in the prior
`unref()` trace, and among the handles the operation inserts) are globally
distinct: the `unref()` trace grows by a duplicate-free batch `t`; every
handle in `t` is absent from the map afterwards (never unreffed while still
retrievable); and every handle that leaves the map - by eviction, explicit
removal, failed touch, or replacement - is in `t`, i.e. is unreffed exactly
once.  `restore_lru` is excluded: its `clear()` discards entries without
`unref()`. -/
theorem unref_exactly_once_nonrestore_ops (m : EvictingMap) (elapsed : Int)
    (op : Op) (s : State) (hnr : op.nonRestore = true) (hwf : s.WF)
    (hnd : (op.newIds ++ (ids s.lru ++ s.unreffed)).Nodup) :
    ∃ t, (m.runOp elapsed s op).unreffed = s.unreffed ++ t ∧ t.Nodup ∧
      (∀ i ∈ t, i ∉ ids (m.runOp elapsed s op).lru) ∧
      (∀ i, (i ∈ ids s.lru ∨ i ∈ op.newIds) →
        i ∉ ids (m.runOp elapsed s op).lru → i ∈ t) :=
  unref_once_aux m elapsed op s hnr hwf hnd

/-- Witness for C2's theorem: explicitly removing the single entry (handle
id 5) of a concrete cache. -/
theorem unref_exactly_once_nonrestore_ops_witness :
    ∃ t, ((⟨0, 0, 0, 0, 0⟩ : EvictingMap).runOp 0
        (⟨[(1, ⟨0, ⟨5, 3, true⟩⟩)], 3, 0, 0, 0, 0, 0, 0, 0, []⟩ : State)
        (Op.remove 1)).unreffed =
      (⟨[(1, ⟨0, ⟨5, 3, true⟩⟩)], 3, 0, 0, 0, 0, 0, 0, 0, []⟩ : State).unreffed ++ t ∧
      t.Nodup ∧
      (∀ i ∈ t, i ∉ ids ((⟨0, 0, 0, 0, 0⟩ : EvictingMap).runOp 0
        (⟨[(1, ⟨0, ⟨5, 3, true⟩⟩)], 3, 0, 0, 0, 0, 0, 0, 0, []⟩ : State)
        (Op.remove 1)).lru) ∧
      (∀ i, (i ∈ ids (⟨[(1, ⟨0, ⟨5, 3, true⟩⟩)], 3, 0, 0, 0, 0, 0, 0, 0, []⟩ : State).lru ∨
          i ∈ (Op.remove 1).newIds) →
        i ∉ ids ((⟨0, 0, 0, 0, 0⟩ : EvictingMap).runOp 0
          (⟨[(1, ⟨0, ⟨5, 3, true⟩⟩)], 3, 0, 0, 0, 0, 0, 0, 0, []⟩ : State)
          (Op.remove 1)).lru → i ∈ t) :=
  unref_exactly_once_nonrestore_ops ⟨0, 0, 0, 0, 0⟩ 0 (Op.remove 1)
    ⟨[(1, ⟨0, ⟨5, 3, true⟩⟩)], 3, 0, 0, 0, 0, 0, 0, 0, []⟩ rfl (by decide) (by decide)

/-- C2 counterexample: `restore_lru` makes an entry leave the map with no
`unref()`.  A cache holding one entry with handle id 7 restored from an
empty snapshot ends with an empty map and an empty `unref()` trace: the
departing handle was never unreffed. -/
theorem restore_lru_drops_entries_without_unref :
    ids (⟨[(1, ⟨0, ⟨7, 3, true⟩⟩)], 3, 0, 0, 0, 0, 0, 0, 0, []⟩ : State).lru = [7] ∧
    ((⟨0, 0, 0, 0, 0⟩ : EvictingMap).restore_lru 0
        (⟨[(1, ⟨0, ⟨7, 3, true⟩⟩)], 3, 0, 0, 0, 0, 0, 0, 0, []⟩ : State)
        ⟨[], 0⟩ (fun k => ⟨k, 0, true⟩)).2.lru = [] ∧
    ((⟨0, 0, 0, 0, 0⟩ : EvictingMap).restore_lru 0
        (⟨[(1, ⟨0, ⟨7, 3, true⟩⟩)], 3, 0, 0, 0, 0, 0, 0, 0, []⟩ : State)
        ⟨[], 0⟩ (fun k => ⟨k, 0, true⟩)).2.unreffed = [] := by decide

/-- C3 (code bug): round-tripping `build_lru_index` through `restore_lru`
on an unmodified two-entry cache (all limits disabled, same anchor, builder
rebuilding equivalent handles) preserves the key set and every per-key
`seconds_since_anchor`, but REVERSES the recency order: the snapshot is
emitted most-recent-first ([1, 2], entry 1 age 10 most recent) and restore
re-`put`s in that order, so the restored order is [2, 1].  This theorem
evaluates the code at that input, exhibiting the divergence from the
claimed "same recency order". -/
theorem snapshot_roundtrip_reverses_recency_order :
    ((⟨0, 0, 0, 0, 42⟩ : EvictingMap).build_lru_index 0
        (⟨[(1, ⟨10, ⟨1, 0, true⟩⟩), (2, ⟨5, ⟨2, 0, true⟩⟩)],
          0, 0, 0, 0, 0, 0, 0, 0, []⟩ : State)).2 =
      ⟨[(1, 10), (2, 5)], 42⟩ ∧
    keys (⟨[(1, ⟨10, ⟨1, 0, true⟩⟩), (2, ⟨5, ⟨2, 0, true⟩⟩)],
        0, 0, 0, 0, 0, 0, 0, 0, []⟩ : State).lru = [1, 2] ∧
    keys ((⟨0, 0, 0, 0, 42⟩ : EvictingMap).restore_lru 0
        (⟨[(1, ⟨10, ⟨1, 0, true⟩⟩), (2, ⟨5, ⟨2, 0, true⟩⟩)],
          0, 0, 0, 0, 0, 0, 0, 0, []⟩ : State)
        ⟨[(1, 10), (2, 5)], 42⟩ (fun k => ⟨k, 0, true⟩)).2.lru = [2, 1] ∧
    Lru.lookup ((⟨0, 0, 0, 0, 42⟩ : EvictingMap).restore_lru 0
        (⟨[(1, ⟨10, ⟨1, 0, true⟩⟩), (2, ⟨5, ⟨2, 0, true⟩⟩)],
          0, 0, 0, 0, 0, 0, 0, 0, []⟩ : State)
        ⟨[(1, 10), (2, 5)], 42⟩ (fun k => ⟨k, 0, true⟩)).2.lru 1 = some ⟨10, ⟨1, 0, true⟩⟩ ∧
    Lru.lookup ((⟨0, 0, 0, 0, 42⟩ : EvictingMap).restore_lru 0
        (⟨[(1, ⟨10, ⟨1, 0, true⟩⟩), (2, ⟨5, ⟨2, 0, true⟩⟩)],
          0, 0, 0, 0, 0, 0, 0, 0, []⟩ : State)
        ⟨[(1, 10), (2, 5)], 42⟩ (fun k => ⟨k, 0, true⟩)).2.lru 2 = some ⟨5, ⟨2, 0, true⟩⟩ := by
  decide

/-- C4 (amended): in an eviction pass the effective byte budget is lowered
to `max_bytes - evict_bytes` (clamped at zero) exactly when `max_bytes` and
`evict_bytes` are both nonzero and `should_evict` holds against the
unshrunk `max_bytes` for ANY of its three reasons (size, age, or count) -
not only on a byte-budget breach; in every other case the pass evaluates
the loop against the unmodified `max_bytes`.  Stated as equality of
`evict_items` with an independent model of that amended rule. -/
theorem budget_lowering_follows_should_evict :
    ∀ (m : EvictingMap) (elapsed : Int) (s : State),
      m.evict_items elapsed s = evict_items_amended m elapsed s := by
  intro m elapsed s
  cases hl : s.lru.getLast? with
  | none =>
    rw [EvictingMap.evict_items, evict_items_amended]
    simp only [hl]
  | some kv =>
    obtain ⟨k, e⟩ := kv
    rw [evict_items_eq m elapsed s k e hl]
    have heqr : evict_items_amended m elapsed s =
        m.evictLoopFuel elapsed
          (if m.max_bytes ≠ 0 ∧ m.evict_bytes ≠ 0 ∧
              m.should_evict elapsed s.lru.length e s.sum_store_size m.max_bytes = true then
            m.max_bytes - m.evict_bytes
          else m.max_bytes) s.lru.length s := by
      rw [evict_items_amended]
      simp only [hl]
    rw [heqr]
    congr 1
    by_cases h1 : m.max_bytes = 0
    · simp [h1]
    · by_cases h2 : m.evict_bytes = 0
      · simp [h1, h2]
      · by_cases h3 : m.should_evict elapsed s.lru.length e s.sum_store_size m.max_bytes = true
        · have hcondL : (m.max_bytes != 0 && m.evict_bytes != 0 &&
              m.should_evict elapsed s.lru.length e s.sum_store_size m.max_bytes) = true := by
            rw [h3]
            simp [bne_iff_ne, h1, h2]
          rw [if_pos hcondL, if_pos (show m.max_bytes ≠ 0 ∧ m.evict_bytes ≠ 0 ∧
              m.should_evict elapsed s.lru.length e s.sum_store_size m.max_bytes = true from
            ⟨h1, h2, h3⟩)]
          split
          · rfl
          · omega
        · have hseF : m.should_evict elapsed s.lru.length e s.sum_store_size m.max_bytes
              = false := by
            cases hb : m.should_evict elapsed s.lru.length e s.sum_store_size m.max_bytes with
            | true => exact absurd hb h3
            | false => rfl
          have hcondL : (m.max_bytes != 0 && m.evict_bytes != 0 &&
              m.should_evict elapsed s.lru.length e s.sum_store_size m.max_bytes) = false := by
            rw [hseF]
            simp
          rw [if_neg (show ¬ ((m.max_bytes != 0 && m.evict_bytes != 0 &&
              m.should_evict elapsed s.lru.length e s.sum_store_size m.max_bytes) = true) from
            fun hcontra => Bool.false_ne_true (hcondL ▸ hcontra)),
            if_neg (show ¬ (m.max_bytes ≠ 0 ∧ m.evict_bytes ≠ 0 ∧
              m.should_evict elapsed s.lru.length e s.sum_store_size m.max_bytes = true) from
            fun hcontra => h3 hcontra.2.2)]

/-- C4 counterexample: with `max_bytes = 100`, `evict_bytes = 20`,
`max_seconds = 10`, an aggregate of 95 (NOT at or above `max_bytes`) and an
over-age oldest entry, the pass nevertheless lowers the budget: the code
empties the map (the 90-byte entry of key 2 is evicted although, as the
first two conjuncts show, the policy would not evict it against the
unmodified budget), while the claim's model - lowering only on a byte
breach - keeps key 2. -/
theorem budget_lowering_not_only_on_byte_breach :
    (95 : Nat) < 100 ∧
    (⟨100, 20, 10, 0, 0⟩ : EvictingMap).should_evict 20 1 ⟨15, ⟨2, 90, true⟩⟩ 90 100 = false ∧
    keys ((⟨100, 20, 10, 0, 0⟩ : EvictingMap).evict_items 20
      (⟨[(2, ⟨15, ⟨2, 90, true⟩⟩), (1, ⟨0, ⟨1, 5, true⟩⟩)],
        95, 0, 0, 0, 0, 0, 0, 0, []⟩ : State)).lru = [] ∧
    keys (evict_items_per_claim ⟨100, 20, 10, 0, 0⟩ 20
      (⟨[(2, ⟨15, ⟨2, 90, true⟩⟩), (1, ⟨0, ⟨1, 5, true⟩⟩)],
        95, 0, 0, 0, 0, 0, 0, 0, []⟩ : State)).lru = [2] := by decide

/-- C5: the concrete hysteresis scenario (max_bytes 100, evict_bytes 20;
insert A = key 1 with len 60, then B = key 2 with len 50: A is evicted,
only B remains with aggregate 50, `size_for_key` returns `none` for A and
`some 50` for B), and in general inserting a fresh key that pushes the
aggregate strictly past `max_bytes = B` with `evict_bytes = E < B` leaves a
post-insert aggregate of at most `B - E`. -/
theorem byte_budget_scenario_and_convergence :
    (((⟨100, 20, 0, 0, 0⟩ : EvictingMap).size_for_key 0
        ((⟨100, 20, 0, 0, 0⟩ : EvictingMap).insert 0
          ((⟨100, 20, 0, 0, 0⟩ : EvictingMap).insert 0 State.initial 1 ⟨1, 60, true⟩).1
          2 ⟨2, 50, true⟩).1 1).2 = none ∧
      ((⟨100, 20, 0, 0, 0⟩ : EvictingMap).size_for_key 0
        ((⟨100, 20, 0, 0, 0⟩ : EvictingMap).insert 0
          ((⟨100, 20, 0, 0, 0⟩ : EvictingMap).insert 0 State.initial 1 ⟨1, 60, true⟩).1
          2 ⟨2, 50, true⟩).1 2).2 = some 50 ∧
      keys ((⟨100, 20, 0, 0, 0⟩ : EvictingMap).insert 0
          ((⟨100, 20, 0, 0, 0⟩ : EvictingMap).insert 0 State.initial 1 ⟨1, 60, true⟩).1
          2 ⟨2, 50, true⟩).1.lru = [2] ∧
      ((⟨100, 20, 0, 0, 0⟩ : EvictingMap).insert 0
          ((⟨100, 20, 0, 0, 0⟩ : EvictingMap).insert 0 State.initial 1 ⟨1, 60, true⟩).1
          2 ⟨2, 50, true⟩).1.sum_store_size = 50) ∧
    (∀ (m : EvictingMap) (elapsed age : Int) (s : State) (k : Nat) (e : Entry),
      s.WF → m.evict_bytes < m.max_bytes → Lru.lookup s.lru k = none →
      m.max_bytes < s.sum_store_size + e.len →
      (m.insert_with_time elapsed s k e age).1.sum_store_size ≤
        m.max_bytes - m.evict_bytes) :=
  ⟨by decide, fun m elapsed age s k e hwf hEB habsent hover =>
    insert_byte_convergence m elapsed age s k e hwf hEB habsent hover⟩

/-- Witness for C5's general bound: inserting a 150-byte entry into the
empty cache with budget 100 and hysteresis 20 leaves at most 80 bytes. -/
theorem byte_budget_scenario_and_convergence_witness :
    State.initial.WF ∧ (20 : Nat) < 100 ∧
    Lru.lookup State.initial.lru 1 = none ∧
    (100 : Nat) < State.initial.sum_store_size + 150 ∧
    ((⟨100, 20, 0, 0, 0⟩ : EvictingMap).insert_with_time 0 State.initial 1
      ⟨1, 150, true⟩ 0).1.sum_store_size ≤ 100 - 20 :=
  ⟨by decide, by decide, rfl, by decide,
    byte_budget_scenario_and_convergence.2 ⟨100, 20, 0, 0, 0⟩ 0 0 State.initial 1
      ⟨1, 150, true⟩ (by decide) (by decide) rfl (by decide)⟩

/-- C6 (code bug): when `remove` pops a present entry, the code books the
pop on the EVICTED counters, not the removed ones: `inner_remove` calls
`State::remove` with `replaced = false`, which increments
`evicted_items`/`evicted_bytes`, and no code path anywhere increments
`removed_items`/`removed_bytes` - although both counters exist and are
published as "items/bytes explicitly removed from the store".  First
conjunct: evaluation at the failing input (one 5-byte entry, `remove`
returns `true`, `evicted_items = 1`, `removed_items = 0`).  Second
conjunct: the removed counters are unchanged by every public operation. -/
theorem remove_books_on_evicted_counters :
    (((⟨0, 0, 0, 0, 0⟩ : EvictingMap).remove 0
        (⟨[(1, ⟨0, ⟨1, 5, true⟩⟩)], 5, 0, 0, 0, 0, 0, 0, 0, []⟩ : State) 1).2 = true ∧
      ((⟨0, 0, 0, 0, 0⟩ : EvictingMap).remove 0
        (⟨[(1, ⟨0, ⟨1, 5, true⟩⟩)], 5, 0, 0, 0, 0, 0, 0, 0, []⟩ : State) 1).1.removed_items = 0 ∧
      ((⟨0, 0, 0, 0, 0⟩ : EvictingMap).remove 0
        (⟨[(1, ⟨0, ⟨1, 5, true⟩⟩)], 5, 0, 0, 0, 0, 0, 0, 0, []⟩ : State) 1).1.removed_bytes = 0 ∧
      ((⟨0, 0, 0, 0, 0⟩ : EvictingMap).remove 0
        (⟨[(1, ⟨0, ⟨1, 5, true⟩⟩)], 5, 0, 0, 0, 0, 0, 0, 0, []⟩ : State) 1).1.evicted_items = 1 ∧
      ((⟨0, 0, 0, 0, 0⟩ : EvictingMap).remove 0
        (⟨[(1, ⟨0, ⟨1, 5, true⟩⟩)], 5, 0, 0, 0, 0, 0, 0, 0, []⟩ : State) 1).1.evicted_bytes = 5 ∧
      ((⟨0, 0, 0, 0, 0⟩ : EvictingMap).remove 0
        (⟨[(1, ⟨0, ⟨1, 5, true⟩⟩)], 5, 0, 0, 0, 0, 0, 0, 0, []⟩ : State) 1).1.replaced_items = 0) ∧
    (∀ (m : EvictingMap) (elapsed : Int) (op : Op) (s : State),
      (m.runOp elapsed s op).removed_items = s.removed_items ∧
      (m.runOp elapsed s op).removed_bytes = s.removed_bytes) :=
  ⟨by decide, fun m elapsed op s => runOp_removed m elapsed op s⟩

/-- C7 (amended): `remove_if` on a present key whose entry fails the
predicate returns `false` and removes nothing - no entry is popped or
unreffed, the aggregate, all counters and the `unref()` trace are
unchanged, and the entry remains retrievable - BUT the lookup is done with
the promoting `lru.get`, so the sole state change is that the examined
entry moves to most-recently-used position (the result is `s` with its LRU
list replaced by a permutation of itself). -/
theorem remove_if_false_no_removal_but_promotes (m : EvictingMap) (elapsed : Int)
    (s : State) (k : Nat) (e : EvictionItem) (cond : Entry → Bool)
    (hl : Lru.lookup s.lru k = some e) (hc : cond e.data = false) :
    m.remove_if elapsed s k cond = ({ s with lru := (k, e) :: Lru.erase s.lru k }, false) ∧
    Lru.lookup ((k, e) :: Lru.erase s.lru k) k = some e ∧
    s.lru.Perm ((k, e) :: Lru.erase s.lru k) := by
  refine ⟨?_, by simp [Lru.lookup], Lru.perm_cons_erase hl⟩
  rw [EvictingMap.remove_if]
  simp only [Lru.get, hl]
  rw [if_neg (by simp [hc])]

/-- Witness for C7's theorem: `remove_if` with an `is_empty`-style
predicate on a present 3-byte entry, evaluated concretely. -/
theorem remove_if_false_no_removal_but_promotes_witness :
    Lru.lookup ([(2, ⟨0, ⟨2, 7, true⟩⟩), (1, ⟨0, ⟨1, 3, true⟩⟩)] : Lru) 1 =
      some ⟨0, ⟨1, 3, true⟩⟩ ∧
    ((fun e => e.len == 0) (⟨1, 3, true⟩ : Entry)) = false ∧
    (⟨0, 0, 0, 0, 0⟩ : EvictingMap).remove_if 0
      (⟨[(2, ⟨0, ⟨2, 7, true⟩⟩), (1, ⟨0, ⟨1, 3, true⟩⟩)],
        10, 0, 0, 0, 0, 0, 0, 0, []⟩ : State) 1 (fun e => e.len == 0) =
      ((⟨[(1, ⟨0, ⟨1, 3, true⟩⟩), (2, ⟨0, ⟨2, 7, true⟩⟩)],
        10, 0, 0, 0, 0, 0, 0, 0, []⟩ : State), false) :=
  ⟨rfl, rfl,
    (remove_if_false_no_removal_but_promotes ⟨0, 0, 0, 0, 0⟩ 0
      ⟨[(2, ⟨0, ⟨2, 7, true⟩⟩), (1, ⟨0, ⟨1, 3, true⟩⟩)], 10, 0, 0, 0, 0, 0, 0, 0, []⟩
      1 ⟨0, ⟨1, 3, true⟩⟩ (fun e => e.len == 0) rfl rfl).1⟩

/-- C7 counterexample: the claim "performs no mutation of the cache state
whatsoever - the recency order is unchanged" is false.  On a cache holding
[2, 1] (most-recent first), `remove_if` of key 1 with the always-false
predicate `len == 0` returns `false` but reorders recency to [1, 2]: the
looked-up entry was promoted. -/
theorem remove_if_false_promotes_entry :
    ((⟨0, 0, 0, 0, 0⟩ : EvictingMap).remove_if 0
      (⟨[(2, ⟨0, ⟨2, 7, true⟩⟩), (1, ⟨0, ⟨1, 3, true⟩⟩)],
        10, 0, 0, 0, 0, 0, 0, 0, []⟩ : State) 1 (fun e => e.len == 0)).2 = false ∧
    keys (⟨[(2, ⟨0, ⟨2, 7, true⟩⟩), (1, ⟨0, ⟨1, 3, true⟩⟩)],
        10, 0, 0, 0, 0, 0, 0, 0, []⟩ : State).lru = [2, 1] ∧
    keys ((⟨0, 0, 0, 0, 0⟩ : EvictingMap).remove_if 0
      (⟨[(2, ⟨0, ⟨2, 7, true⟩⟩), (1, ⟨0, ⟨1, 3, true⟩⟩)],
        10, 0, 0, 0, 0, 0, 0, 0, []⟩ : State) 1 (fun e => e.len == 0)).1.lru = [1, 2] := by
  decide

/-- C8: with only `max_seconds = S` configured and a controllable clock, a
single never-touched entry inserted with age `t` is still returned by `get`
while `elapsed - t ≤ S` and is gone (evicted, `get` returns `none`) once
`elapsed - t > S`; and the policy's age test fires exactly when
`seconds_since_anchor < elapsed - max_seconds`. -/
theorem age_eviction_retrievability (S t elapsed : Int) (key A : Nat) (ent : Entry)
    (hS : S ≠ 0) (htouch : ent.touchOk = true) :
    ((⟨0, 0, S, 0, A⟩ : EvictingMap).get elapsed
      (⟨[(key, ⟨t, ent⟩)], ent.len, 0, 0, 0, 0, 0, 0, 0, []⟩ : State) key).2 =
      (if elapsed - t ≤ S then some ent else none) ∧
    (∀ (n : Nat) (item : EvictionItem) (sum : Nat),
      (⟨0, 0, S, 0, A⟩ : EvictingMap).should_evict elapsed n item sum 0 = true ↔
        item.seconds_since_anchor < elapsed - S) :=
  ⟨get_single_entry_age S t elapsed key A ent hS htouch, by
    intro n item sum
    rw [should_evict_iff]
    simp [hS]⟩

/-- Witness for C8's theorem: `S = 10`, entry of age 0, clock at 11 seconds
elapsed - strictly more than `S` since insertion, so `get` returns
`none`. -/
theorem age_eviction_retrievability_witness :
    (10 : Int) ≠ 0 ∧ (⟨1, 4, true⟩ : Entry).touchOk = true ∧
    ((⟨0, 0, 10, 0, 0⟩ : EvictingMap).get 11
      (⟨[(1, ⟨0, ⟨1, 4, true⟩⟩)], 4, 0, 0, 0, 0, 0, 0, 0, []⟩ : State) 1).2 = none :=
  ⟨by decide, rfl,
    (age_eviction_retrievability 10 0 11 1 0 ⟨1, 4, true⟩ (by decide) rfl).1⟩

/-- C9: with `max_count = N` nonzero, any public operation run from a state
within the count limit leaves at most `N` entries; and the concrete
scenario: with `max_count = 2`, inserting keys 1, 2, 3 in order evicts the
oldest (key 1), leaving exactly the 2 entries [3, 2] in most-recent-first
order, with `get` of key 1 returning `none`. -/
theorem count_eviction_bound_and_scenario :
    (∀ (m : EvictingMap) (elapsed : Int) (op : Op) (s : State),
      m.max_count ≠ 0 → s.lru.length ≤ m.max_count →
      (m.runOp elapsed s op).lru.length ≤ m.max_count) ∧
    (keys ((⟨0, 0, 0, 2, 0⟩ : EvictingMap).insert 0
        ((⟨0, 0, 0, 2, 0⟩ : EvictingMap).insert 0
          ((⟨0, 0, 0, 2, 0⟩ : EvictingMap).insert 0 State.initial 1 ⟨1, 1, true⟩).1
          2 ⟨2, 1, true⟩).1 3 ⟨3, 1, true⟩).1.lru = [3, 2] ∧
      ((⟨0, 0, 0, 2, 0⟩ : EvictingMap).insert 0
        ((⟨0, 0, 0, 2, 0⟩ : EvictingMap).insert 0
          ((⟨0, 0, 0, 2, 0⟩ : EvictingMap).insert 0 State.initial 1 ⟨1, 1, true⟩).1
          2 ⟨2, 1, true⟩).1 3 ⟨3, 1, true⟩).1.lru.length = 2 ∧
      ((⟨0, 0, 0, 2, 0⟩ : EvictingMap).get 0
        ((⟨0, 0, 0, 2, 0⟩ : EvictingMap).insert 0
          ((⟨0, 0, 0, 2, 0⟩ : EvictingMap).insert 0
            ((⟨0, 0, 0, 2, 0⟩ : EvictingMap).insert 0 State.initial 1 ⟨1, 1, true⟩).1
            2 ⟨2, 1, true⟩).1 3 ⟨3, 1, true⟩).1 1).2 = none) :=
  ⟨fun m elapsed op s hc hs => runOp_count m elapsed op s hc hs, by decide⟩

/-- Witness for C9's bound: inserting into the empty cache with
`max_count = 2` leaves at most 2 entries. -/
theorem count_eviction_bound_and_scenario_witness :
    (⟨0, 0, 0, 2, 0⟩ : EvictingMap).max_count ≠ 0 ∧
    State.initial.lru.length ≤ (⟨0, 0, 0, 2, 0⟩ : EvictingMap).max_count ∧
    ((⟨0, 0, 0, 2, 0⟩ : EvictingMap).runOp 0 State.initial
      (Op.insert 1 ⟨1, 1, true⟩)).lru.length ≤ (⟨0, 0, 0, 2, 0⟩ : EvictingMap).max_count :=
  ⟨by decide, by decide,
    count_eviction_bound_and_scenario.1 ⟨0, 0, 0, 2, 0⟩ 0 (Op.insert 1 ⟨1, 1, true⟩)
      State.initial (by decide) (by decide)⟩
